import Mathlib

/-!
Shallow embedding of the QPACK experimental decoder
(`proxygen/lib/http/codec/compress/experimental/qpack/QPACKDecoder.cpp`).

The decoder is a single-threaded reactor-driven engine: `decodeStreaming`
walks an instruction stream synchronously, queuing asynchronous table
resolutions whose continuations are dispatched later as discrete reactor
callbacks.  We model bytes as `Nat` masked by `% 256` at each read,
requests and pending asynchronous operations explicitly, and asynchronous
completion as delivery of an `Outcome` to a queued `PendingOp`.

Collaborators that are not part of the decoder translation unit
(`HPACKDecodeBuffer`, the static table / `QPACKContext` index helpers,
`HPACKHeader::bytes`, the Huffman codec) are modelled from the spec, as
marked on each definition.
-/

namespace QPACK

/-- Decode error kinds (`HPACK::DecodeError`); the streaming callback
receives the recorded kind on failure. -/
inductive DecodeError where
  | bufferUnderflow
  | invalidIndex
  | timeout
  | cancelled
  | integerOverflow
  | literalDecodeFail
  deriving DecidableEq, Repr

/-- A header field: name and value as byte strings. -/
structure HPACKHeader where
  name : List Nat
  value : List Nat
  deriving DecidableEq, Repr

/-- Modelled from the spec: `HPACKHeader::bytes()` — size-for-accounting is
length(name) + length(value) + a fixed per-entry overhead (32, the standard
wire/table accounting constant). -/
def headerBytes (h : HPACKHeader) : Nat :=
  h.name.length + h.value.length + 32

/-- Modelled from the spec: external collaborators — the read-only static
table (a fixed sequence of header fields) and the Huffman string codec
(decodes an opaque byte span, failing on malformed input). -/
structure Env where
  staticTable : List HPACKHeader
  huff : List Nat → Option (List Nat)

/-- Modelled from the spec: `isStatic` — indices in the low contiguous range
(up to the static table size) name static entries. -/
def isStatic (env : Env) (index : Nat) : Bool :=
  index ≤ env.staticTable.length

/-- Modelled from the spec: static and dynamic segments share one global
numbering space; a static global index maps to itself. -/
def globalToStaticIndex (index : Nat) : Nat := index

/-- Modelled from the spec: dynamic indices are offset by the number of
static entries. -/
def globalToDynamicIndex (env : Env) (index : Nat) : Nat :=
  index - env.staticTable.length

/-- Modelled from the spec: the static table's bounds check — valid static
table-local indices are 1 .. size. -/
def staticTableIsValid (env : Env) (index : Nat) : Bool :=
  1 ≤ index ∧ index ≤ env.staticTable.length

/-- `QPACKDecoder::isValid`: every non-static (dynamic) index is
provisionally valid since entries may arrive out of order; a static index
must pass the static table's bounds check. -/
def isValid (env : Env) (index : Nat) : Bool :=
  if ¬ isStatic env index then
    true
  else
    staticTableIsValid env (globalToStaticIndex index)

/-- Modelled from the spec: `getStaticHeader` — lookup of a static entry by
global index (1-based). -/
def getStaticHeader (env : Env) (index : Nat) : HPACKHeader :=
  (env.staticTable.get? (globalToStaticIndex index - 1)).getD ⟨[], []⟩

/-! ### Primitive decoder

Modelled from the spec: `HPACKDecodeBuffer` — prefixed variable-length
integers (base-128 continuation encoding accumulated into a 32-bit result)
and literal strings (prefixed length, Huffman flag bit, then raw or
Huffman-coded payload). -/

/-- Continuation bytes of a prefixed integer: each byte contributes 7 bits,
the high bit marks continuation; fails on exhaustion or 32-bit overflow. -/
def decodeIntRest : List Nat → Nat → Nat → Except DecodeError (Nat × List Nat)
  | [], _, _ => .error .bufferUnderflow
  | b :: rest, acc, shift =>
    let b' := b % 256
    let acc' := acc + (b' % 128) * 2 ^ shift
    if 2 ^ 32 ≤ acc' then .error .integerOverflow
    else if 128 ≤ b' then decodeIntRest rest acc' (shift + 7)
    else .ok (acc', rest)

/-- Decode an integer with an `nbits`-bit prefix: if the masked base value
is all-ones it escapes into continuation bytes. -/
def decodeInteger (nbits : Nat) (bs : List Nat) : Except DecodeError (Nat × List Nat) :=
  match bs with
  | [] => .error .bufferUnderflow
  | b :: rest =>
    let base := (b % 256) % 2 ^ nbits
    if base = 2 ^ nbits - 1 then decodeIntRest rest base 0
    else .ok (base, rest)

/-- Decode a literal string: a Huffman flag bit (bit 7 of the first byte),
a 7-bit-prefixed length, then the payload (delegated to the Huffman codec
when the flag is set). -/
def decodeLiteral (huff : List Nat → Option (List Nat)) (bs : List Nat) :
    Except DecodeError (List Nat × List Nat) :=
  match bs with
  | [] => .error .bufferUnderflow
  | b :: _ =>
    let isHuff := (b % 256) / 128 % 2 = 1
    match decodeInteger 7 bs with
    | .error e => .error e
    | .ok (len, rest) =>
      if len ≤ rest.length then
        if isHuff then
          match huff (rest.take len) with
          | some s => .ok (s, rest.drop len)
          | none => .error .literalDecodeFail
        else .ok (rest.take len, rest.drop len)
      else .error .bufferUnderflow

/-! ### Decoder state -/

/-- One decode request (`QPACKDecoder::DecodeRequest`): bookkeeping for one
top-level `decodeStreaming` call. -/
structure DecodeRequest where
  id : Nat
  pending : Int
  allSubmitted : Bool
  err : Option DecodeError
  uncompressed : Nat
  consumedBytes : Nat
  deriving DecidableEq, Repr

/-- An outstanding asynchronous table operation: the continuation chain
attached to a dynamic-index resolution (`getDynamicHeader`), to a pending
literal-name resolution, or to a `decoderRemove`. -/
inductive PendingOp where
  | indexedHdr (reqId : Nat) (index : Nat)
  | literalHdr (reqId : Nat) (value : List Nat) (indexing : Bool) (newIndex : Nat)
      (nameIndex : Nat)
  | deleteOp (delIndex : Nat)
  deriving DecidableEq, Repr

/-- The decode-request id an operation's continuation acts on, if any. -/
def PendingOp.reqId? : PendingOp → Option Nat
  | .indexedHdr reqId _ => some reqId
  | .literalHdr reqId _ _ _ _ => some reqId
  | .deleteOp _ => none

/-- Observable callback invocations: per-request streaming callbacks
(`onHeader` / `onHeadersComplete` / `onDecodeError`, tagged by request id)
and the decoder-wide delete acknowledgment channel (`ack` / `onError`). -/
inductive Event where
  | onHeader (reqId : Nat) (name value : List Nat)
  | onHeadersComplete (reqId : Nat) (uncompressed : Nat)
  | onDecodeError (reqId : Nat) (err : DecodeError)
  | ack (tableIndex : Nat)
  | ackError
  deriving DecidableEq, Repr

/-- The asynchronous outcome eventually delivered to a pending operation:
successful resolution with a header, the fixed decode timeout firing, the
promise breaking (table teardown), or a table-reported error. -/
inductive Outcome where
  | success (res : HPACKHeader)
  | timeout
  | brokenPromise
  | runtimeError
  deriving DecidableEq, Repr

/-- The decoder engine state (`QPACKDecoder` fields plus the queue of
not-yet-completed asynchronous operations). -/
structure State where
  decodeRequests : List DecodeRequest
  pendingOps : List PendingOp
  pendingDecodeBytes : Nat
  queuedBytes : Nat
  table : List (Nat × HPACKHeader)
  nextReqId : Nat
  deriving Repr

/-- The freshly-constructed decoder. -/
def initState : State :=
  { decodeRequests := [], pendingOps := [], pendingDecodeBytes := 0,
    queuedBytes := 0, table := [], nextReqId := 0 }

/-- Look up an active request by id. -/
def findReq (st : State) (id : Nat) : Option DecodeRequest :=
  st.decodeRequests.find? (fun r => r.id = id)

/-- Update the request with the given id in place. -/
def updateReq (st : State) (id : Nat) (f : DecodeRequest → DecodeRequest) : State :=
  { st with decodeRequests :=
      st.decodeRequests.map (fun r => if r.id = id then f r else r) }

/-- Erase the request with the given id (`decodeRequests_.erase`). -/
def eraseReq (st : State) (id : Nat) : State :=
  { st with decodeRequests := st.decodeRequests.filter (fun r => ¬ r.id = id) }

/-- Record an error on the request (`dreq->err = ...`). -/
def setErr (st : State) (id : Nat) (e : Option DecodeError) : State :=
  updateReq st id (fun q => { q with err := e })

/-- Queue an asynchronous operation's continuation chain. -/
def addOp (st : State) (op : PendingOp) : State :=
  { st with pendingOps := st.pendingOps ++ [op] }

/-- Modelled from the spec: `QPACKHeaderTable::add` — insert a header at the
pre-declared dynamic index (recorded as a log of insertions). -/
def tableAdd (st : State) (h : HPACKHeader) (newIndex : Nat) : State :=
  { st with table := (newIndex, h) :: st.table }

/-! ### Terminal check and emission -/

/-- `QPACKDecoder::checkComplete`: if all instructions are submitted and no
emission is outstanding, complete; else if an error is recorded, fail; in
both cases invoke the terminal callback and discard the request. -/
def checkComplete (st : State) (id : Nat) : State × List Event × Bool :=
  match findReq st id with
  | none => (st, [], false)
  | some r =>
    if r.pending = 0 ∧ r.allSubmitted then
      (eraseReq st id, [.onHeadersComplete id r.uncompressed], true)
    else
      match r.err with
      | some e => (eraseReq st id, [.onDecodeError id e], true)
      | none => (st, [], false)

/-- `QPACKDecoder::emit`: deliver one header to the request's streaming
callback, account its size, release its `pending` slot, then run the
terminal check. -/
def emit (st : State) (id : Nat) (header : HPACKHeader) : State × List Event :=
  let st₁ := updateReq st id (fun q =>
    { q with uncompressed := q.uncompressed + headerBytes header,
             pending := q.pending - 1 })
  let (st₂, ev, _) := checkComplete st₁ id
  (st₂, .onHeader id header.name header.value :: ev)

/-! ### Instruction handlers -/

/-- `QPACKDecoder::decodeDelete`: decode a 5-bit-prefixed reference count
and an 8-bit-prefixed target index; a zero refcount, zero index or static
index aborts the instruction (no error is recorded unless the integer
decode itself failed); otherwise release the `pending` slot immediately and
queue the asynchronous `decoderRemove`. -/
def decodeDelete (env : Env) (st : State) (id : Nat) (bs : List Nat) :
    State × List Event × List Nat :=
  match decodeInteger 5 bs with
  | .error e => (setErr st id (some e), [], [])
  | .ok (refcount, rest) =>
    let st₁ := setErr st id none
    if refcount = 0 then (st₁, [], rest)
    else
      match decodeInteger 8 rest with
      | .error e => (setErr st₁ id (some e), [], [])
      | .ok (delIndex, rest2) =>
        let st₂ := setErr st₁ id none
        if delIndex = 0 ∨ isStatic env delIndex then (st₂, [], rest2)
        else
          let st₃ := updateReq st₂ id (fun q => { q with pending := q.pending - 1 })
          (addOp st₃ (.deleteOp delIndex), [], rest2)

/-- The name resolution produced while decoding a literal header: ready
immediately (literal name, or static entry) or awaiting a dynamic entry. -/
inductive NameFuture where
  | ready (h : HPACKHeader)
  | pendingName (nameIndex : Nat)
  deriving DecidableEq, Repr

/-- The tail of `QPACKDecoder::decodeLiteralHeader` after the name is
settled: decode the literal value, add its length to the pending-byte
counter, then chain the emission continuation off the name future —
inline when the future is ready, queued otherwise. -/
def decodeLiteralValue (env : Env) (st : State) (id : Nat) (bs : List Nat)
    (indexing : Bool) (newIndex : Nat) (nf : NameFuture) :
    State × List Event × List Nat :=
  match decodeLiteral env.huff bs with
  | .error e => (setErr st id (some e), [], [])
  | .ok (value, rest) =>
    let st₁ := setErr st id none
    let st₂ := { st₁ with pendingDecodeBytes := st₁.pendingDecodeBytes + value.length }
    match nf with
    | .ready h =>
      let st₃ := { st₂ with pendingDecodeBytes := st₂.pendingDecodeBytes - value.length }
      let header : HPACKHeader := ⟨h.name, value⟩
      let (st₄, ev) := emit st₃ id header
      let st₅ := if indexing then tableAdd st₄ header newIndex else st₄
      (st₅, ev, rest)
    | .pendingName nameIndex =>
      (addOp st₂ (.literalHdr id value indexing newIndex nameIndex), [], rest)

/-- The name part of `QPACKDecoder::decodeLiteralHeader`: an indexed name
(prefix bits nonzero — validated, then resolved synchronously for static
indices and asynchronously for dynamic ones) or a literal name (the control
byte is skipped and a literal string decoded). -/
def decodeLiteralName (env : Env) (st : State) (id : Nat) (bs : List Nat)
    (nbits : Nat) (indexing : Bool) (newIndex : Nat) :
    State × List Event × List Nat :=
  let byte := (bs.headD 0) % 256
  let nameIndexed := byte % 2 ^ nbits ≠ 0
  if nameIndexed then
    match decodeInteger nbits bs with
    | .error e => (setErr st id (some e), [], [])
    | .ok (nameIndex, rest) =>
      let st₁ := setErr st id none
      if ¬ isValid env nameIndex then
        (setErr st₁ id (some .invalidIndex), [], rest)
      else if isStatic env nameIndex then
        decodeLiteralValue env st₁ id rest indexing newIndex
          (.ready (getStaticHeader env nameIndex))
      else
        decodeLiteralValue env st₁ id rest indexing newIndex
          (.pendingName nameIndex)
  else
    match decodeLiteral env.huff bs.tail with
    | .error e => (setErr st id (some e), [], [])
    | .ok (name, rest) =>
      let st₁ := setErr st id none
      decodeLiteralValue env st₁ id rest indexing newIndex (.ready ⟨name, []⟩)

/-- `QPACKDecoder::decodeLiteralHeader`: bit 6 distinguishes
literal-with-indexing (a 6-bit-prefixed new-entry target index that must
not be static, then an 8-bit name prefix) from literal-without-indexing
(bit 5 set routes to delete; otherwise a 4-bit name prefix). -/
def decodeLiteralHeader (env : Env) (st : State) (id : Nat) (bs : List Nat) :
    State × List Event × List Nat :=
  let byte := (bs.headD 0) % 256
  let indexing := byte / 64 % 2 = 1
  if indexing then
    match decodeInteger 6 bs with
    | .error e => (setErr st id (some e), [], [])
    | .ok (newIndexG, rest) =>
      let st₁ := setErr st id none
      if isStatic env newIndexG then
        (setErr st₁ id (some .invalidIndex), [], rest)
      else
        let newIndex := globalToDynamicIndex env newIndexG
        if rest = [] then (setErr st₁ id (some .bufferUnderflow), [], rest)
        else decodeLiteralName env st₁ id rest 8 true newIndex
  else
    let deleteOp := byte / 32 % 2 = 1
    if deleteOp then decodeDelete env st id bs
    else decodeLiteralName env st id bs 4 false 0

/-- `QPACKDecoder::decodeIndexedHeader`: decode a 7-bit-prefixed global
index; zero or invalid indices fail with `INVALID_INDEX`; static indices
emit immediately; dynamic indices queue an asynchronous resolution. -/
def decodeIndexedHeader (env : Env) (st : State) (id : Nat) (bs : List Nat) :
    State × List Event × List Nat :=
  match decodeInteger 7 bs with
  | .error e => (setErr st id (some e), [], [])
  | .ok (index, rest) =>
    let st₁ := setErr st id none
    if index = 0 ∨ ¬ isValid env index then
      (setErr st₁ id (some .invalidIndex), [], rest)
    else if isStatic env index then
      let (st₂, ev) := emit st₁ id (getStaticHeader env index)
      (st₂, ev, rest)
    else
      (addOp st₁ (.indexedHdr id index), [], rest)

/-- `QPACKDecoder::decodeHeader`: dispatch on bit 7 of the leading byte. -/
def decodeHeader (env : Env) (st : State) (id : Nat) (bs : List Nat) :
    State × List Event × List Nat :=
  let byte := (bs.headD 0) % 256
  if byte / 128 % 2 = 1 then decodeIndexedHeader env st id bs
  else decodeLiteralHeader env st id bs

/-- The submission loop of `decodeStreaming`: while the request has no
recorded error and bytes remain, bump `pending` and decode one
instruction.  `fuel` dominates the byte count so the loop is total; each
successfully decoded instruction consumes at least one byte. -/
def decodeLoop (env : Env) : Nat → State → Nat → List Nat →
    State × List Event × List Nat
  | 0, st, _, bs => (st, [], bs)
  | fuel + 1, st, id, bs =>
    match findReq st id with
    | none => (st, [], bs)
    | some r =>
      if r.err.isSome ∨ bs = [] then (st, [], bs)
      else
        let st₁ := updateReq st id (fun q => { q with pending := q.pending + 1 })
        let (st₂, ev, rest) := decodeHeader env st₁ id bs
        let (st₃, ev', rest') := decodeLoop env fuel st₂ id rest
        (st₃, ev ++ ev', rest')

/-- `QPACKDecoder::decodeStreaming`: create a fresh decode request, drive
the submission loop over the instruction bytes, mark submission finished
(only when no error was recorded), run the terminal check, refresh the
queued-bytes accounting, and return whether the request reached a terminal
state during the call. -/
def decodeStreaming (env : Env) (st : State) (bs : List Nat) :
    State × List Event × Bool :=
  let id := st.nextReqId
  let newReq : DecodeRequest :=
    { id := id, pending := 0, allSubmitted := false, err := none,
      uncompressed := 0, consumedBytes := 0 }
  let st₀ := { st with decodeRequests := newReq :: st.decodeRequests,
                       nextReqId := id + 1 }
  let (st₁, ev, rest) := decodeLoop env (bs.length + 1) st₀ id bs
  let st₂ := updateReq st₁ id (fun q =>
    { q with allSubmitted := !q.err.isSome,
             consumedBytes := bs.length - rest.length })
  let (st₃, ev', done) := checkComplete st₂ id
  let st₄ := { st₃ with queuedBytes :=
    st₃.pendingDecodeBytes +
      st₃.decodeRequests.foldl (fun a r => a + r.uncompressed) 0 }
  (st₄, ev ++ ev', done)

/-! ### Asynchronous completion -/

/-- Run the continuation chain of a completed asynchronous operation.
Continuations acting on a request that no longer exists no-op (the
request's futures carry destructor checks); the pending-byte counter and
the acknowledgment channel belong to the decoder itself. -/
def runContinuation (env : Env) (st : State) (op : PendingOp) (out : Outcome) :
    State × List Event :=
  match op, out with
  | .indexedHdr id _, .success res =>
    if (findReq st id).isSome then emit st id res else (st, [])
  | .indexedHdr id _, .timeout =>
    if (findReq st id).isSome then
      let st₁ := setErr st id (some .timeout)
      let (st₂, ev, _) := checkComplete st₁ id
      (st₂, ev)
    else (st, [])
  | .indexedHdr _ _, .brokenPromise => (st, [])
  | .indexedHdr id _, .runtimeError =>
    if (findReq st id).isSome then
      let st₁ := setErr st id (some .invalidIndex)
      let (st₂, ev, _) := checkComplete st₁ id
      (st₂, ev)
    else (st, [])
  | .literalHdr id value indexing newIndex _, .success res =>
    let st₀ := { st with pendingDecodeBytes := st.pendingDecodeBytes - value.length }
    if (findReq st₀ id).isSome then
      let header : HPACKHeader := ⟨res.name, value⟩
      let (st₁, ev) := emit st₀ id header
      (if indexing then tableAdd st₁ header newIndex else st₁, ev)
    else (st₀, [])
  | .literalHdr id _ _ _ _, .timeout =>
    if (findReq st id).isSome then
      let st₁ := setErr st id (some .timeout)
      let (st₂, ev, _) := checkComplete st₁ id
      (st₂, ev)
    else (st, [])
  | .literalHdr _ _ _ _ _, .brokenPromise => (st, [])
  | .literalHdr id _ _ _ _, .runtimeError =>
    if (findReq st id).isSome then
      let st₁ := setErr st id (some .invalidIndex)
      let (st₂, ev, _) := checkComplete st₁ id
      (st₂, ev)
    else (st, [])
  | .deleteOp delIndex, .success _ =>
    (st, [.ack (globalToDynamicIndex env delIndex - 1)])
  | .deleteOp _, .timeout => (st, [.ackError])
  | .deleteOp _, .brokenPromise => (st, [])
  | .deleteOp _, .runtimeError => (st, [.ackError])

/-- The reactor dispatches the completion of the `i`-th outstanding
asynchronous operation with the given outcome. -/
def deliverOutcome (env : Env) (st : State) (i : Nat) (out : Outcome) :
    State × List Event :=
  match st.pendingOps.get? i with
  | none => (st, [])
  | some op =>
    let st₁ := { st with pendingOps := st.pendingOps.eraseIdx i }
    runContinuation env st₁ op out

/-- Deliver a whole schedule of asynchronous outcomes, in order. -/
def runOutcomes (env : Env) (st : State) : List (Nat × Outcome) → State × List Event
  | [] => (st, [])
  | (i, out) :: ds =>
    let (st₁, ev) := deliverOutcome env st i out
    let (st₂, ev') := runOutcomes env st₁ ds
    (st₂, ev ++ ev')

/-- The body of `QPACKDecoder::~QPACKDecoder`: while requests remain, force
the first into a cancellation error and run its terminal check.  Fuel
equals the request count; every iteration discards at least the head. -/
def destructorLoop : Nat → State → State × List Event
  | 0, st => (st, [])
  | fuel + 1, st =>
    match st.decodeRequests with
    | [] => (st, [])
    | r :: _ =>
      let st₁ := setErr st r.id (some .cancelled)
      let (st₂, ev, _) := checkComplete st₁ r.id
      let (st₃, ev') := destructorLoop fuel st₂
      (st₃, ev ++ ev')

/-- `QPACKDecoder::~QPACKDecoder`: drain every active request; outstanding
futures are left running. -/
def destructor (st : State) : State × List Event :=
  destructorLoop st.decodeRequests.length st

/-! ### Observation predicates -/

/-- Is this event the terminal callback (`onHeadersComplete` /
`onDecodeError`) of the request with the given id? -/
def isTerminalFor (id : Nat) : Event → Bool
  | .onHeadersComplete i _ => i = id
  | .onDecodeError i _ => i = id
  | _ => false

/-- Is this event a streaming-callback invocation of the request with the
given id? -/
def taggedBy (id : Nat) : Event → Bool
  | .onHeader i _ _ => i = id
  | .onHeadersComplete i _ => i = id
  | .onDecodeError i _ => i = id
  | _ => false

/-- How many terminal callbacks for the given request occur in a trace. -/
def countTerminal (id : Nat) (evs : List Event) : Nat :=
  (evs.filter (isTerminalFor id)).length

/-- The ids of the requests currently in the engine's active list. -/
def activeIds (st : State) : List Nat :=
  st.decodeRequests.map (fun r => r.id)

/-- Indicator: 1 while the request is in the active list, 0 after it has
been discarded. -/
def alive (st : State) (id : Nat) : Nat :=
  if id ∈ activeIds st then 1 else 0

/-- A trace consisting solely of `onHeader` deliveries to the given
request. -/
def OnlyHeaders (id : Nat) (evs : List Event) : Prop :=
  ∀ e ∈ evs, ∃ n v, e = Event.onHeader id n v

/-- One engine step consumes the request's aliveness into at most one
terminal callback: terminals emitted plus aliveness after equals aliveness
before. -/
def TrackStep (id : Nat) (st : State) (evs : List Event) (st' : State) : Prop :=
  countTerminal id evs + alive st' id = alive st id

/-- The boundary invariant of the request state machine: between reactor
callbacks an active request has no recorded error and is not yet eligible
for completion (otherwise its terminal check would already have fired). -/
def BoundaryInv (st : State) : Prop :=
  ∀ r ∈ st.decodeRequests, r.err = none ∧ (r.pending ≠ 0 ∨ r.allSubmitted = false)

/-- The submission loop leaves everything except the driven request
untouched: asynchronous queues, byte accounting, the table, the id
counter, the set of active requests, and every other request. -/
def LoopSim (st : State) (id : Nat) (st' : State) : Prop :=
  st'.pendingOps = st.pendingOps ∧
  st'.pendingDecodeBytes = st.pendingDecodeBytes ∧
  st'.table = st.table ∧
  st'.queuedBytes = st.queuedBytes ∧
  st'.nextReqId = st.nextReqId ∧
  activeIds st' = activeIds st ∧
  (∀ j, j ≠ id → findReq st' j = findReq st j)

/-! ### Wire encoder for static-only instruction sequences

Modelled from the spec: the wire instruction encodings (§6) restricted to
the forms that reference no dynamic entry — indexed header with a static
index, literal header without indexing whose name is a static index or a
literal.  Used to state the synchronous-decode property. -/

/-- Continuation bytes of the base-128 integer encoding (low 7 bits per
byte, high bit set on all but the last). -/
def encodeRest (v : Nat) : List Nat :=
  if h : v < 128 then [v]
  else (128 + v % 128) :: encodeRest (v / 128)
  decreasing_by exact Nat.div_lt_self (by omega) (by omega)

/-- Encode an integer with an `nbits`-bit prefix under the instruction's
control bits `base`. -/
def encodeInteger (nbits base v : Nat) : List Nat :=
  if v < 2 ^ nbits - 1 then [base + v]
  else (base + (2 ^ nbits - 1)) :: encodeRest (v - (2 ^ nbits - 1))

/-- Encode a raw (non-Huffman) literal string: 7-bit-prefixed length with
the Huffman flag clear, then the payload bytes. -/
def encodeLiteralStr (s : List Nat) : List Nat :=
  encodeInteger 7 0 s.length ++ s

/-- The instructions that carry no dynamic-index reference and no
dynamically-indexed name. -/
inductive StaticInstr where
  | indexed (i : Nat)
  | literalStaticName (i : Nat) (value : List Nat)
  | literalName (name value : List Nat)

/-- Validity of a static-only instruction against a static table of `S`
entries: indices are in bounds and lengths fit the 32-bit integer range. -/
def StaticInstr.valid (S : Nat) : StaticInstr → Prop
  | .indexed i => 1 ≤ i ∧ i ≤ S ∧ i < 2 ^ 32
  | .literalStaticName i v => 1 ≤ i ∧ i ≤ S ∧ i < 2 ^ 32 ∧ v.length < 2 ^ 32
  | .literalName n v => n.length < 2 ^ 32 ∧ v.length < 2 ^ 32

instance instStaticInstrValidDecidable (S : Nat) (i : StaticInstr) :
    Decidable (i.valid S) := by
  cases i <;> exact inferInstanceAs (Decidable (_ ∧ _))

/-- Wire bytes of one static-only instruction. -/
def encodeInstr : StaticInstr → List Nat
  | .indexed i => encodeInteger 7 128 i
  | .literalStaticName i v => encodeInteger 4 0 i ++ encodeLiteralStr v
  | .literalName n v => 0 :: (encodeLiteralStr n ++ encodeLiteralStr v)

/-- Wire bytes of a static-only instruction sequence. -/
def encodeInstrs (l : List StaticInstr) : List Nat :=
  (l.map encodeInstr).flatten

/-- The header field a static-only instruction emits. -/
def instrHeader (env : Env) : StaticInstr → HPACKHeader
  | .indexed i => getStaticHeader env i
  | .literalStaticName i v => ⟨(getStaticHeader env i).name, v⟩
  | .literalName n v => ⟨n, v⟩

/-- Modelled from the claim's words, for comparison with the code: the
new-entry target index of a literal-with-indexing instruction decoded as an
8-bit-prefixed integer. -/
def claimTargetIndexDecode (bs : List Nat) : Except DecodeError (Nat × List Nat) :=
  decodeInteger 8 bs

/-! ### Concrete fixtures for witnesses and counterexamples -/

/-- A 10-entry static table (entry `k` has name `[k]` and value `[k, k]`)
with a Huffman codec that rejects every input. -/
def env10 : Env :=
  { staticTable := (List.range 10).map (fun k => ⟨[k + 1], [k + 1, k + 1]⟩),
    huff := fun _ => none }

/-- A sample active decode request awaiting one resolution. -/
def reqA : DecodeRequest :=
  { id := 5, pending := 1, allSubmitted := false, err := none,
    uncompressed := 0, consumedBytes := 0 }

/-- An engine state with the single active request `reqA`. -/
def stOne : State :=
  { initState with decodeRequests := [reqA], nextReqId := 6 }

/-- A sample request that has submitted everything and awaits one
resolution. -/
def reqB : DecodeRequest :=
  { id := 3, pending := 1, allSubmitted := true, err := none,
    uncompressed := 7, consumedBytes := 4 }

/-- An engine state with `reqB` active and one outstanding resolution. -/
def stTwo : State :=
  { initState with decodeRequests := [reqB],
                   pendingOps := [.indexedHdr 3 12], nextReqId := 4 }

/-! ## Infrastructure lemmas: request-list bookkeeping -/

theorem find?_update_self (l : List DecodeRequest) (id : Nat)
    (f : DecodeRequest → DecodeRequest) (hf : ∀ r, (f r).id = r.id) :
    (l.map (fun r => if r.id = id then f r else r)).find? (fun r => r.id = id) =
      (l.find? (fun r => r.id = id)).map f := by
  induction l with
  | nil => rfl
  | cons a l ih =>
    by_cases h : a.id = id
    · simp [List.find?_cons, h, hf]
    · simp [List.find?_cons, h, ih]

theorem find?_update_other (l : List DecodeRequest) (id j : Nat) (hj : j ≠ id)
    (f : DecodeRequest → DecodeRequest) (hf : ∀ r, (f r).id = r.id) :
    (l.map (fun r => if r.id = id then f r else r)).find? (fun r => r.id = j) =
      l.find? (fun r => r.id = j) := by
  induction l with
  | nil => rfl
  | cons a l ih =>
    simp only [List.map_cons, List.find?_cons]
    by_cases h : a.id = id
    · have h1 : (decide ((if a.id = id then f a else a).id = j)) = false := by
        rw [if_pos h, hf, h]
        exact decide_eq_false_iff_not.mpr (fun hc => hj hc.symm)
      have h2 : (decide (a.id = j)) = false := by
        rw [h]
        exact decide_eq_false_iff_not.mpr (fun hc => hj hc.symm)
      rw [h1, h2]; exact ih
    · by_cases h2 : a.id = j
      · have h1 : (decide ((if a.id = id then f a else a).id = j)) = true := by
          rw [if_neg h]
          exact decide_eq_true_eq.mpr h2
        rw [h1, decide_eq_true_eq.mpr h2]
        simp [if_neg h]
      · have h1 : (decide ((if a.id = id then f a else a).id = j)) = false := by
          rw [if_neg h]
          exact decide_eq_false_iff_not.mpr h2
        rw [h1, decide_eq_false_iff_not.mpr h2]; exact ih

theorem find?_filter_self (l : List DecodeRequest) (id : Nat) :
    (l.filter (fun r => ¬ r.id = id)).find? (fun r => r.id = id) = none := by
  induction l with
  | nil => rfl
  | cons a l ih =>
    by_cases h : a.id = id
    · simp [List.filter_cons, h, ih]
    · simp [List.filter_cons, h, List.find?_cons, ih]

theorem find?_filter_other (l : List DecodeRequest) (id j : Nat) (hj : j ≠ id) :
    (l.filter (fun r => ¬ r.id = id)).find? (fun r => r.id = j) =
      l.find? (fun r => r.id = j) := by
  induction l with
  | nil => rfl
  | cons a l ih =>
    simp only [List.filter_cons]
    by_cases h : a.id = id
    · have h1 : (decide ¬ a.id = id) = false := by simp [h]
      have h2 : (decide (a.id = j)) = false := by
        simp only [h, decide_eq_false_iff_not]
        exact fun hc => hj hc.symm
      rw [h1, if_neg (by simp), List.find?_cons, h2]
      exact ih
    · have h1 : (decide ¬ a.id = id) = true := by simp [h]
      rw [h1, if_pos rfl, List.find?_cons, List.find?_cons]
      by_cases h2 : a.id = j
      · rw [decide_eq_true_eq.mpr h2]
      · rw [decide_eq_false_iff_not.mpr h2]; exact ih

theorem findReq_updateReq_self (st : State) (id : Nat)
    (f : DecodeRequest → DecodeRequest) (hf : ∀ r, (f r).id = r.id) :
    findReq (updateReq st id f) id = (findReq st id).map f :=
  find?_update_self st.decodeRequests id f hf

theorem findReq_updateReq_other (st : State) (id j : Nat) (hj : j ≠ id)
    (f : DecodeRequest → DecodeRequest) (hf : ∀ r, (f r).id = r.id) :
    findReq (updateReq st id f) j = findReq st j :=
  find?_update_other st.decodeRequests id j hj f hf

theorem findReq_eraseReq_self (st : State) (id : Nat) :
    findReq (eraseReq st id) id = none :=
  find?_filter_self st.decodeRequests id

theorem findReq_eraseReq_other (st : State) (id j : Nat) (hj : j ≠ id) :
    findReq (eraseReq st id) j = findReq st j :=
  find?_filter_other st.decodeRequests id j hj

theorem activeIds_updateReq (st : State) (id : Nat)
    (f : DecodeRequest → DecodeRequest) (hf : ∀ r, (f r).id = r.id) :
    activeIds (updateReq st id f) = activeIds st := by
  unfold activeIds updateReq
  simp only [List.map_map]
  apply List.map_congr_left
  intro r _
  by_cases h : r.id = id <;> simp [Function.comp, h, hf]

theorem mem_activeIds_iff (st : State) (id : Nat) :
    id ∈ activeIds st ↔ (findReq st id).isSome := by
  unfold activeIds findReq
  rw [List.find?_isSome]
  constructor
  · intro h
    obtain ⟨r, hr, hid⟩ := List.mem_map.mp h
    exact ⟨r, hr, by simp [hid]⟩
  · rintro ⟨r, hr, hid⟩
    exact List.mem_map.mpr ⟨r, hr, by simpa using hid⟩

theorem findReq_isSome_of_mem (st : State) (r : DecodeRequest)
    (hr : r ∈ st.decodeRequests) : (findReq st r.id).isSome := by
  rw [← mem_activeIds_iff]
  exact List.mem_map.mpr ⟨r, hr, rfl⟩

theorem mem_activeIds_eraseReq (st : State) (id j : Nat) :
    j ∈ activeIds (eraseReq st id) ↔ (j ∈ activeIds st ∧ j ≠ id) := by
  unfold activeIds eraseReq
  simp only [List.mem_map]
  constructor
  · rintro ⟨r, hr, rfl⟩
    rw [List.mem_filter] at hr
    refine ⟨⟨r, hr.1, rfl⟩, ?_⟩
    simpa using hr.2
  · rintro ⟨⟨r, hr, rfl⟩, hne⟩
    exact ⟨r, List.mem_filter.mpr ⟨hr, by simpa using hne⟩, rfl⟩

theorem alive_updateReq (st : State) (id j : Nat)
    (f : DecodeRequest → DecodeRequest) (hf : ∀ r, (f r).id = r.id) :
    alive (updateReq st id f) j = alive st j := by
  unfold alive
  rw [activeIds_updateReq st id f hf]

theorem alive_eraseReq_self (st : State) (id : Nat) :
    alive (eraseReq st id) id = 0 := by
  unfold alive
  simp [mem_activeIds_eraseReq]

theorem alive_eraseReq_other (st : State) (id j : Nat) (hj : j ≠ id) :
    alive (eraseReq st id) j = alive st j := by
  unfold alive
  simp only [mem_activeIds_eraseReq]
  by_cases h : j ∈ activeIds st <;> simp [h, hj]

theorem alive_of_findReq_isSome (st : State) (id : Nat)
    (h : (findReq st id).isSome) : alive st id = 1 := by
  unfold alive
  rw [if_pos ((mem_activeIds_iff st id).mpr h)]

theorem alive_setErr (st : State) (id₀ : Nat) (e : Option DecodeError) (id : Nat) :
    alive (setErr st id₀ e) id = alive st id :=
  alive_updateReq st id₀ id _ (fun _ => rfl)

theorem alive_addOp (st : State) (op : PendingOp) (id : Nat) :
    alive (addOp st op) id = alive st id := rfl

/-! ## TrackStep: every engine step consumes aliveness into terminals -/

theorem countTerminal_nil (id : Nat) : countTerminal id [] = 0 := rfl

theorem countTerminal_append (id : Nat) (a b : List Event) :
    countTerminal id (a ++ b) = countTerminal id a + countTerminal id b := by
  simp [countTerminal, List.filter_append]

theorem trackStep_refl (id : Nat) (st : State) : TrackStep id st [] st := by
  unfold TrackStep
  rw [countTerminal_nil]
  omega

theorem trackStep_of_alive_eq {id : Nat} {st st' : State}
    (h : alive st' id = alive st id) : TrackStep id st [] st' := by
  unfold TrackStep
  rw [countTerminal_nil, h]
  omega

theorem checkComplete_of_findReq_none (st : State) (id : Nat)
    (h : findReq st id = none) : checkComplete st id = (st, [], false) := by
  unfold checkComplete
  simp only [h]

theorem checkComplete_fires_complete (st : State) (id : Nat) (r : DecodeRequest)
    (h : findReq st id = some r) (hc : r.pending = 0 ∧ r.allSubmitted) :
    checkComplete st id =
      (eraseReq st id, [Event.onHeadersComplete id r.uncompressed], true) := by
  unfold checkComplete
  simp only [h, if_pos hc]

theorem checkComplete_fires_error (st : State) (id : Nat) (r : DecodeRequest)
    (e : DecodeError) (h : findReq st id = some r)
    (hc : ¬ (r.pending = 0 ∧ r.allSubmitted)) (he : r.err = some e) :
    checkComplete st id = (eraseReq st id, [Event.onDecodeError id e], true) := by
  unfold checkComplete
  simp only [h, if_neg hc, he]

theorem checkComplete_no_fire (st : State) (id : Nat) (r : DecodeRequest)
    (h : findReq st id = some r) (hc : ¬ (r.pending = 0 ∧ r.allSubmitted))
    (he : r.err = none) : checkComplete st id = (st, [], false) := by
  unfold checkComplete
  simp only [h, if_neg hc, he]

theorem trackStep_append {id : Nat} {st st₁ st₂ : State} {ev ev' : List Event}
    (h1 : TrackStep id st ev st₁) (h2 : TrackStep id st₁ ev' st₂) :
    TrackStep id st (ev ++ ev') st₂ := by
  unfold TrackStep at *
  rw [countTerminal_append]
  omega

theorem trackStep_cons_onHeader {id j : Nat} {st st' : State} {ev : List Event}
    {n v : List Nat} (h : TrackStep id st ev st') :
    TrackStep id st (Event.onHeader j n v :: ev) st' := by
  unfold TrackStep at *
  have : countTerminal id (Event.onHeader j n v :: ev) = countTerminal id ev := by
    simp [countTerminal, isTerminalFor]
  rw [this]
  exact h

theorem trackStep_erase_terminal (st : State) (id₀ id : Nat) (e : Event)
    (hfind : (findReq st id₀).isSome) (hterm : isTerminalFor id₀ e)
    (htag : ∀ j, isTerminalFor j e → j = id₀) :
    TrackStep id st [e] (eraseReq st id₀) := by
  unfold TrackStep
  by_cases hid : id₀ = id
  · subst hid
    rw [alive_eraseReq_self, alive_of_findReq_isSome st id₀ hfind]
    simp [countTerminal, hterm]
  · rw [alive_eraseReq_other st id₀ id (fun hc2 => hid hc2.symm)]
    have : isTerminalFor id e = false := by
      cases hterm2 : isTerminalFor id e
      · rfl
      · exact absurd (htag id hterm2).symm hid
    simp [countTerminal, this]

theorem checkComplete_track (st : State) (id₀ id : Nat) {st' : State}
    {ev : List Event} {done : Bool} (h : checkComplete st id₀ = (st', ev, done)) :
    TrackStep id st ev st' := by
  cases hfind : findReq st id₀ with
  | none =>
    rw [checkComplete_of_findReq_none st id₀ hfind] at h
    cases h
    exact trackStep_refl id st
  | some r =>
    by_cases hc : r.pending = 0 ∧ r.allSubmitted
    · rw [checkComplete_fires_complete st id₀ r hfind hc] at h
      cases h
      apply trackStep_erase_terminal st id₀ id _ (by rw [hfind]; rfl)
      · simp [isTerminalFor]
      · intro j hj
        exact (by simpa [isTerminalFor] using hj : id₀ = j).symm
    · cases herr : r.err with
      | some e =>
        rw [checkComplete_fires_error st id₀ r e hfind hc herr] at h
        cases h
        apply trackStep_erase_terminal st id₀ id _ (by rw [hfind]; rfl)
        · simp [isTerminalFor]
        · intro j hj
          exact (by simpa [isTerminalFor] using hj : id₀ = j).symm
      | none =>
        rw [checkComplete_no_fire st id₀ r hfind hc herr] at h
        cases h
        exact trackStep_refl id st

theorem emit_track (st : State) (id₀ id : Nat) (header : HPACKHeader)
    {st' : State} {ev : List Event} (h : emit st id₀ header = (st', ev)) :
    TrackStep id st ev st' := by
  unfold emit at h
  cases heq : checkComplete (updateReq st id₀ (fun q =>
      { q with uncompressed := q.uncompressed + headerBytes header,
               pending := q.pending - 1 })) id₀ with
  | mk st₂ rest =>
    cases rest with
    | mk ev₂ done =>
      simp only [heq] at h
      cases h
      apply trackStep_cons_onHeader
      have h1 : TrackStep id st []
          (updateReq st id₀ (fun q =>
            { q with uncompressed := q.uncompressed + headerBytes header,
                     pending := q.pending - 1 })) :=
        trackStep_of_alive_eq (alive_updateReq st id₀ id _ (fun _ => rfl))
      have h2 := checkComplete_track _ id₀ id heq
      simpa using trackStep_append h1 h2

theorem alive_congr {st' st : State}
    (h : st'.decodeRequests = st.decodeRequests) (id : Nat) :
    alive st' id = alive st id := by
  unfold alive activeIds
  rw [h]

theorem alive_pendingBytes (st : State) (x : Nat) (id : Nat) :
    alive { st with pendingDecodeBytes := x } id = alive st id := rfl

theorem alive_tableAdd (st : State) (h : HPACKHeader) (ni : Nat) (id : Nat) :
    alive (tableAdd st h ni) id = alive st id := rfl

theorem alive_updateReq_pending (st : State) (id₀ id : Nat) (d : Int) :
    alive (updateReq st id₀ (fun q => { q with pending := q.pending + d })) id =
      alive st id :=
  alive_updateReq st id₀ id _ (fun _ => rfl)

theorem alive_updateReq_pending_dec (st : State) (id₀ id : Nat) :
    alive (updateReq st id₀ (fun q => { q with pending := q.pending - 1 })) id =
      alive st id :=
  alive_updateReq st id₀ id _ (fun _ => rfl)

theorem decodeDelete_track (env : Env) (st : State) (id₀ id : Nat) (bs : List Nat)
    {st' : State} {ev : List Event} {rest : List Nat}
    (h : decodeDelete env st id₀ bs = (st', ev, rest)) : TrackStep id st ev st' := by
  simp only [decodeDelete] at h
  split at h
  · cases h
    exact trackStep_of_alive_eq (alive_setErr st id₀ _ id)
  · split at h
    · cases h
      exact trackStep_of_alive_eq (alive_setErr st id₀ _ id)
    · split at h
      · cases h
        exact trackStep_of_alive_eq (by rw [alive_setErr, alive_setErr])
      · split at h
        · cases h
          exact trackStep_of_alive_eq (by rw [alive_setErr, alive_setErr])
        · cases h
          apply trackStep_of_alive_eq
          trans (alive (updateReq (setErr (setErr st id₀ none) id₀ none) id₀
            (fun q => { q with pending := q.pending - 1 })) id)
          · exact alive_congr rfl id
          trans (alive (setErr (setErr st id₀ none) id₀ none) id)
          · exact alive_updateReq _ id₀ id _ (fun _ => rfl)
          rw [alive_setErr, alive_setErr]

theorem decodeIndexedHeader_track (env : Env) (st : State) (id₀ id : Nat)
    (bs : List Nat) {st' : State} {ev : List Event} {rest : List Nat}
    (h : decodeIndexedHeader env st id₀ bs = (st', ev, rest)) :
    TrackStep id st ev st' := by
  simp only [decodeIndexedHeader] at h
  split at h
  · cases h
    exact trackStep_of_alive_eq (alive_setErr st id₀ _ id)
  · split at h
    · cases h
      exact trackStep_of_alive_eq (by rw [alive_setErr, alive_setErr])
    · split at h
      · rename_i index rst hok hval hstat
        cases hemit : emit (setErr st id₀ none) id₀ (getStaticHeader env index) with
        | mk st₂ ev₂ =>
          simp only [hemit] at h
          cases h
          have h1 : TrackStep id st [] (setErr st id₀ none) :=
            trackStep_of_alive_eq (alive_setErr st id₀ none id)
          have h2 := emit_track _ id₀ id _ hemit
          simpa using trackStep_append h1 h2
      · cases h
        apply trackStep_of_alive_eq
        rw [alive_addOp, alive_setErr]

theorem trackStep_post_alive {id : Nat} {st : State} {ev : List Event}
    {st₄ st₅ : State} (h : TrackStep id st ev st₄)
    (he : alive st₅ id = alive st₄ id) : TrackStep id st ev st₅ := by
  unfold TrackStep at *
  rw [he]
  exact h

theorem trackStep_pre_alive {id : Nat} {st st₁ st' : State} {ev : List Event}
    (he : alive st₁ id = alive st id) (h : TrackStep id st₁ ev st') :
    TrackStep id st ev st' := by
  unfold TrackStep at *
  rw [← he]
  exact h

theorem track_emit_then (st A : State) (id₀ id : Nat) (H : HPACKHeader)
    (st₅ : State) (hA : alive A id = alive st id)
    (h5 : st₅.decodeRequests = (emit A id₀ H).1.decodeRequests) :
    TrackStep id st (emit A id₀ H).2 st₅ := by
  have he := emit_track A id₀ id H (Prod.mk.eta (p := emit A id₀ H)).symm
  exact trackStep_pre_alive hA (trackStep_post_alive he (alive_congr h5 id))

theorem decodeLiteralValue_track (env : Env) (st : State) (id₀ id : Nat)
    (bs : List Nat) (indexing : Bool) (newIndex : Nat) (nf : NameFuture)
    {st' : State} {ev : List Event} {rest : List Nat}
    (h : decodeLiteralValue env st id₀ bs indexing newIndex nf = (st', ev, rest)) :
    TrackStep id st ev st' := by
  simp only [decodeLiteralValue] at h
  split at h
  · cases h
    exact trackStep_of_alive_eq (alive_setErr st id₀ _ id)
  · split at h
    · split at h <;>
      · cases h
        refine track_emit_then st _ id₀ id _ _ ?_ rfl
        trans (alive (setErr st id₀ none) id)
        · exact alive_congr rfl id
        exact alive_setErr st id₀ none id
    · cases h
      apply trackStep_of_alive_eq
      trans (alive (setErr st id₀ none) id)
      · exact alive_congr rfl id
      exact alive_setErr st id₀ none id

theorem trackStep_of_no_terminal {id : Nat} {st st' : State} {ev : List Event}
    (hev : countTerminal id ev = 0) (ha : alive st' id = alive st id) :
    TrackStep id st ev st' := by
  unfold TrackStep
  rw [hev, ha]
  omega

theorem triple_eta {α β γ : Type} (p : α × β × γ) : p = (p.1, p.2.1, p.2.2) := rfl

theorem decodeLiteralName_track (env : Env) (st : State) (id₀ id : Nat)
    (bs : List Nat) (nbits : Nat) (indexing : Bool) (newIndex : Nat)
    {st' : State} {ev : List Event} {rest : List Nat}
    (h : decodeLiteralName env st id₀ bs nbits indexing newIndex = (st', ev, rest)) :
    TrackStep id st ev st' := by
  simp only [decodeLiteralName] at h
  split at h
  · split at h
    · cases h
      exact trackStep_of_alive_eq (alive_setErr st id₀ _ id)
    · split at h
      · cases h
        exact trackStep_of_alive_eq
          ((alive_setErr (setErr st id₀ none) id₀ _ id).trans
            (alive_setErr st id₀ none id))
      · split at h
        · exact trackStep_pre_alive (alive_setErr st id₀ none id)
            (decodeLiteralValue_track env _ id₀ id _ _ _ _ h)
        · exact trackStep_pre_alive (alive_setErr st id₀ none id)
            (decodeLiteralValue_track env _ id₀ id _ _ _ _ h)
  · split at h
    · cases h
      exact trackStep_of_alive_eq (alive_setErr st id₀ _ id)
    · exact trackStep_pre_alive (alive_setErr st id₀ none id)
        (decodeLiteralValue_track env _ id₀ id _ _ _ _ h)

theorem decodeLiteralHeader_track (env : Env) (st : State) (id₀ id : Nat)
    (bs : List Nat) {st' : State} {ev : List Event} {rest : List Nat}
    (h : decodeLiteralHeader env st id₀ bs = (st', ev, rest)) :
    TrackStep id st ev st' := by
  simp only [decodeLiteralHeader] at h
  split at h
  · split at h
    · cases h
      exact trackStep_of_alive_eq (alive_setErr st id₀ _ id)
    · split at h
      · cases h
        exact trackStep_of_alive_eq
          ((alive_setErr (setErr st id₀ none) id₀ _ id).trans
            (alive_setErr st id₀ none id))
      · split at h
        · cases h
          exact trackStep_of_alive_eq
            ((alive_setErr (setErr st id₀ none) id₀ _ id).trans
              (alive_setErr st id₀ none id))
        · exact trackStep_pre_alive (alive_setErr st id₀ none id)
            (decodeLiteralName_track env _ id₀ id _ _ _ _ h)
  · split at h
    · exact decodeDelete_track env st id₀ id bs h
    · exact decodeLiteralName_track env st id₀ id bs 4 false 0 h

theorem decodeHeader_track (env : Env) (st : State) (id₀ id : Nat)
    (bs : List Nat) {st' : State} {ev : List Event} {rest : List Nat}
    (h : decodeHeader env st id₀ bs = (st', ev, rest)) :
    TrackStep id st ev st' := by
  simp only [decodeHeader] at h
  split at h
  · exact decodeIndexedHeader_track env st id₀ id bs h
  · exact decodeLiteralHeader_track env st id₀ id bs h

theorem decodeLoop_track (env : Env) (fuel : Nat) :
    ∀ (st : State) (id₀ id : Nat) (bs : List Nat) {st' : State}
      {ev : List Event} {rest : List Nat},
      decodeLoop env fuel st id₀ bs = (st', ev, rest) → TrackStep id st ev st' := by
  induction fuel with
  | zero =>
    intro st id₀ id bs st' ev rest h
    cases h
    exact trackStep_refl id st
  | succ fuel ih =>
    intro st id₀ id bs st' ev rest h
    simp only [decodeLoop] at h
    split at h
    · cases h
      exact trackStep_refl id st
    · split at h
      · cases h
        exact trackStep_refl id st
      · cases h
        have h1 := decodeHeader_track env
          (updateReq st id₀ (fun q => { q with pending := q.pending + 1 }))
          id₀ id bs (triple_eta _)
        have h2 := ih ((decodeHeader env
            (updateReq st id₀ (fun q => { q with pending := q.pending + 1 }))
            id₀ bs).1) id₀ id
          ((decodeHeader env
            (updateReq st id₀ (fun q => { q with pending := q.pending + 1 }))
            id₀ bs).2.2) (triple_eta _)
        refine trackStep_append (trackStep_pre_alive ?_ h1) h2
        exact alive_updateReq st id₀ id _ (fun _ => rfl)

theorem decodeStreaming_track (env : Env) (st : State) (bs : List Nat)
    {st' : State} {ev : List Event} {done : Bool}
    (h : decodeStreaming env st bs = (st', ev, done)) :
    countTerminal st.nextReqId ev + alive st' st.nextReqId = 1 := by
  rcases hL : (decodeLoop env (bs.length + 1) { st with decodeRequests := { id := st.nextReqId, pending := 0, allSubmitted := false, err := none, uncompressed := 0, consumedBytes := 0 } :: st.decodeRequests, nextReqId := st.nextReqId + 1 } st.nextReqId bs) with ⟨LA, LB, LC⟩
  rcases hC : (checkComplete (updateReq LA st.nextReqId (fun q =>
      { q with allSubmitted := !q.err.isSome,
               consumedBytes := bs.length - LC.length })) st.nextReqId)
    with ⟨CA, CB, CC⟩
  simp only [decodeStreaming, hL, hC] at h
  cases h
  rw [countTerminal_append]
  have t1 := decodeLoop_track env (bs.length + 1) _ st.nextReqId st.nextReqId bs hL
  have t3 := checkComplete_track _ st.nextReqId st.nextReqId hC
  have hU : alive (updateReq LA st.nextReqId (fun q =>
      { q with allSubmitted := !q.err.isSome,
               consumedBytes := bs.length - LC.length })) st.nextReqId =
      alive LA st.nextReqId := alive_updateReq _ _ _ _ (fun _ => rfl)
  have hQ : alive { CA with queuedBytes :=
      CA.pendingDecodeBytes +
        CA.decodeRequests.foldl (fun a r => a + r.uncompressed) 0 } st.nextReqId =
      alive CA st.nextReqId := alive_congr rfl st.nextReqId
  have h0 : alive { st with decodeRequests := { id := st.nextReqId, pending := 0, allSubmitted := false, err := none, uncompressed := 0, consumedBytes := 0 } :: st.decodeRequests, nextReqId := st.nextReqId + 1 } st.nextReqId = 1 := by
    simp [alive, activeIds]
  unfold TrackStep at t1 t3
  omega

theorem runContinuation_track (env : Env) (st : State) (op : PendingOp)
    (out : Outcome) (id : Nat) {st' : State} {ev : List Event}
    (h : runContinuation env st op out = (st', ev)) : TrackStep id st ev st' := by
  cases op with
  | indexedHdr i ix =>
    cases out with
    | success res =>
      simp only [runContinuation] at h
      split at h
      · exact emit_track st i id res h
      · cases h; exact trackStep_refl id st
    | timeout =>
      simp only [runContinuation] at h
      split at h
      · cases h
        refine trackStep_pre_alive ?_
          (checkComplete_track (setErr st i (some .timeout)) i id (triple_eta _))
        exact alive_setErr st i _ id
      · cases h; exact trackStep_refl id st
    | brokenPromise => cases h; exact trackStep_refl id st
    | runtimeError =>
      simp only [runContinuation] at h
      split at h
      · cases h
        refine trackStep_pre_alive ?_
          (checkComplete_track (setErr st i (some .invalidIndex)) i id (triple_eta _))
        exact alive_setErr st i _ id
      · cases h; exact trackStep_refl id st
  | literalHdr i value indexing newIndex nameIndex =>
    cases out with
    | success res =>
      simp only [runContinuation] at h
      split at h
      · cases h
        split
        · refine track_emit_then st _ i id _ _ ?_ rfl
          exact alive_congr rfl id
        · refine track_emit_then st _ i id _ _ ?_ rfl
          exact alive_congr rfl id
      · cases h
        exact trackStep_of_alive_eq (alive_congr rfl id)
    | timeout =>
      simp only [runContinuation] at h
      split at h
      · cases h
        refine trackStep_pre_alive ?_
          (checkComplete_track (setErr st i (some .timeout)) i id (triple_eta _))
        exact alive_setErr st i _ id
      · cases h; exact trackStep_refl id st
    | brokenPromise => cases h; exact trackStep_refl id st
    | runtimeError =>
      simp only [runContinuation] at h
      split at h
      · cases h
        refine trackStep_pre_alive ?_
          (checkComplete_track (setErr st i (some .invalidIndex)) i id (triple_eta _))
        exact alive_setErr st i _ id
      · cases h; exact trackStep_refl id st
  | deleteOp d =>
    cases out <;> simp only [runContinuation] at h <;> cases h <;>
      exact trackStep_of_no_terminal (by simp [countTerminal, isTerminalFor]) rfl

theorem deliverOutcome_track (env : Env) (st : State) (i : Nat) (out : Outcome)
    (id : Nat) {st' : State} {ev : List Event}
    (h : deliverOutcome env st i out = (st', ev)) : TrackStep id st ev st' := by
  simp only [deliverOutcome] at h
  split at h
  · cases h; exact trackStep_refl id st
  · refine trackStep_pre_alive ?_ (runContinuation_track env _ _ out id h)
    exact alive_congr rfl id

theorem runOutcomes_track (env : Env) (ds : List (Nat × Outcome)) :
    ∀ (st : State) (id : Nat) {st' : State} {ev : List Event},
      runOutcomes env st ds = (st', ev) → TrackStep id st ev st' := by
  induction ds with
  | nil =>
    intro st id st' ev h
    cases h
    exact trackStep_refl id st
  | cons d ds ih =>
    intro st id st' ev h
    rcases d with ⟨i, out⟩
    simp only [runOutcomes] at h
    cases h
    exact trackStep_append
      (deliverOutcome_track env st i out id (Prod.mk.eta).symm)
      (ih (deliverOutcome env st i out).1 id (Prod.mk.eta).symm)

theorem findReq_head (st : State) (r : DecodeRequest) (tl : List DecodeRequest)
    (h : st.decodeRequests = r :: tl) : findReq st r.id = some r := by
  unfold findReq
  rw [h]
  simp [List.find?_cons]

theorem checkComplete_erases (st : State) (id : Nat) (r : DecodeRequest)
    (e : DecodeError) (hf : findReq st id = some r) (he : r.err = some e) :
    (checkComplete st id).1 = eraseReq st id := by
  by_cases hc : r.pending = 0 ∧ r.allSubmitted
  · rw [checkComplete_fires_complete st id r hf hc]
  · rw [checkComplete_fires_error st id r e hf hc he]

theorem findReq_setErr_self (st : State) (id : Nat) (e : Option DecodeError)
    (r : DecodeRequest) (h : findReq st id = some r) :
    findReq (setErr st id e) id = some { r with err := e } := by
  unfold setErr
  rw [findReq_updateReq_self st id (fun q => { q with err := e }) (fun _ => rfl), h]
  rfl

theorem eraseReq_cons_length (st : State) (r : DecodeRequest)
    (tl : List DecodeRequest) (hl : st.decodeRequests = r :: tl)
    (e : Option DecodeError) :
    (eraseReq (setErr st r.id e) r.id).decodeRequests.length ≤ tl.length := by
  unfold eraseReq setErr updateReq
  simp only [hl, List.map_cons, if_pos rfl]
  rw [List.filter_cons]
  simp only [decide_not]
  rw [if_neg (by simp)]
  exact le_trans (List.length_filter_le _ _) (by rw [List.length_map])

theorem destructorLoop_track (fuel : Nat) :
    ∀ (st : State) (id : Nat) {st' : State} {ev : List Event},
      destructorLoop fuel st = (st', ev) → TrackStep id st ev st' := by
  induction fuel with
  | zero =>
    intro st id st' ev h
    cases h
    exact trackStep_refl id st
  | succ fuel ih =>
    intro st id st' ev h
    cases hl2 : st.decodeRequests with
    | nil =>
      simp only [destructorLoop, hl2] at h
      cases h
      exact trackStep_refl id st
    | cons r tl =>
      simp only [destructorLoop, hl2] at h
      cases h
      refine trackStep_append (trackStep_pre_alive ?_
        (checkComplete_track (setErr st r.id (some .cancelled)) r.id id
          (triple_eta _)))
        (ih _ id (Prod.mk.eta).symm)
      exact alive_setErr st r.id _ id

theorem destructorLoop_empties :
    ∀ (fuel : Nat) (st : State), st.decodeRequests.length ≤ fuel →
      (destructorLoop fuel st).1.decodeRequests = [] := by
  intro fuel
  induction fuel with
  | zero =>
    intro st hl
    simpa [destructorLoop] using List.length_eq_zero.mp (Nat.le_zero.mp hl)
  | succ fuel ih =>
    intro st hl
    cases hl2 : st.decodeRequests with
    | nil => simp only [destructorLoop, hl2]
    | cons r tl =>
      simp only [destructorLoop, hl2]
      apply ih
      have hfr : findReq st r.id = some r := findReq_head st r tl hl2
      have hf1 : findReq (setErr st r.id (some .cancelled)) r.id =
          some { r with err := some .cancelled } :=
        findReq_setErr_self st r.id _ r hfr
      have hC1 := checkComplete_erases _ r.id _ DecodeError.cancelled hf1 rfl
      rw [hC1]
      have h1 := eraseReq_cons_length st r tl hl2 (some .cancelled)
      have h2 : tl.length + 1 ≤ fuel + 1 := by
        have := congrArg List.length hl2
        simp at this
        omega
      omega

theorem destructor_empties (st : State) :
    (destructor st).1.decodeRequests = [] :=
  destructorLoop_empties st.decodeRequests.length st (le_refl _)

theorem alive_of_empty (st : State) (id : Nat)
    (h : st.decodeRequests = []) : alive st id = 0 := by
  unfold alive activeIds
  rw [h]
  simp

/-! ## Submission-phase lemmas: the loop only delivers headers -/

theorem findReq_congr {st' st : State}
    (h : st'.decodeRequests = st.decodeRequests) (id : Nat) :
    findReq st' id = findReq st id := by
  unfold findReq
  rw [h]

theorem findReq_updateReq_some (st : State) (id : Nat)
    (f : DecodeRequest → DecodeRequest) (hf : ∀ q, (f q).id = q.id)
    (r : DecodeRequest) (h : findReq st id = some r) :
    findReq (updateReq st id f) id = some (f r) := by
  rw [findReq_updateReq_self st id f hf, h]
  rfl

theorem onlyHeaders_nil (id : Nat) : OnlyHeaders id [] :=
  fun e he => absurd he (List.not_mem_nil e)

theorem onlyHeaders_singleton (id : Nat) (n v : List Nat) :
    OnlyHeaders id [Event.onHeader id n v] := by
  intro e he
  rw [List.mem_singleton] at he
  exact ⟨n, v, he⟩

theorem onlyHeaders_append {id : Nat} {a b : List Event}
    (ha : OnlyHeaders id a) (hb : OnlyHeaders id b) :
    OnlyHeaders id (a ++ b) := by
  intro e he
  rcases List.mem_append.mp he with h | h
  · exact ha e h
  · exact hb e h

/-- `emit` on a request that is still submitting (`allSubmitted = false`)
and has no recorded error delivers the header and cannot fire a terminal
callback. -/
theorem emit_no_fire (st : State) (id : Nat) (header : HPACKHeader)
    (r : DecodeRequest) (hr : findReq st id = some r)
    (hs : r.allSubmitted = false) (he : r.err = none) :
    emit st id header =
      (updateReq st id (fun q =>
        { q with uncompressed := q.uncompressed + headerBytes header,
                 pending := q.pending - 1 }),
       [Event.onHeader id header.name header.value]) := by
  have hf := findReq_updateReq_some st id (fun q =>
    { q with uncompressed := q.uncompressed + headerBytes header,
             pending := q.pending - 1 }) (fun _ => rfl) r hr
  have hnc := checkComplete_no_fire _ id _ hf (by simp [hs]) he
  unfold emit
  simp only [hnc]

/-- The postcondition every synchronous handler guarantees for the driven
request: it stays active with submission unfinished, and only `onHeader`
events are delivered. -/
def HandlerOK (id₀ : Nat) (st' : State) (ev : List Event) : Prop :=
  (∃ r', findReq st' id₀ = some r' ∧ r'.allSubmitted = false) ∧ OnlyHeaders id₀ ev

theorem decodeDelete_ok (env : Env) (st : State) (id₀ : Nat) (bs : List Nat)
    (r : DecodeRequest) (hr : findReq st id₀ = some r)
    (hs : r.allSubmitted = false) {st' : State} {ev : List Event}
    {rest : List Nat} (h : decodeDelete env st id₀ bs = (st', ev, rest)) :
    HandlerOK id₀ st' ev := by
  have e1 := findReq_setErr_self st id₀ none r hr
  simp only [decodeDelete] at h
  split at h
  · cases h
    exact ⟨⟨_, findReq_setErr_self st id₀ _ r hr, hs⟩, onlyHeaders_nil id₀⟩
  · split at h
    · cases h
      exact ⟨⟨_, e1, hs⟩, onlyHeaders_nil id₀⟩
    · split at h
      · cases h
        exact ⟨⟨_, findReq_setErr_self (setErr st id₀ none) id₀ _ _ e1, hs⟩,
          onlyHeaders_nil id₀⟩
      · split at h
        · cases h
          exact ⟨⟨_, findReq_setErr_self (setErr st id₀ none) id₀ _ _ e1, hs⟩,
            onlyHeaders_nil id₀⟩
        · cases h
          have e2 := findReq_setErr_self (setErr st id₀ none) id₀ none _ e1
          have e3 := findReq_updateReq_some (setErr (setErr st id₀ none) id₀ none)
            id₀ (fun q => { q with pending := q.pending - 1 }) (fun _ => rfl) _ e2
          exact ⟨⟨_, (findReq_congr rfl id₀).trans e3, hs⟩, onlyHeaders_nil id₀⟩

theorem decodeIndexedHeader_ok (env : Env) (st : State) (id₀ : Nat)
    (bs : List Nat) (r : DecodeRequest) (hr : findReq st id₀ = some r)
    (hs : r.allSubmitted = false) {st' : State} {ev : List Event}
    {rest : List Nat} (h : decodeIndexedHeader env st id₀ bs = (st', ev, rest)) :
    HandlerOK id₀ st' ev := by
  have e1 := findReq_setErr_self st id₀ none r hr
  simp only [decodeIndexedHeader] at h
  split at h
  · cases h
    exact ⟨⟨_, findReq_setErr_self st id₀ _ r hr, hs⟩, onlyHeaders_nil id₀⟩
  · split at h
    · cases h
      exact ⟨⟨_, findReq_setErr_self (setErr st id₀ none) id₀ _ _ e1, hs⟩,
        onlyHeaders_nil id₀⟩
    · split at h
      · rename_i index rst hok hval hstat
        have hemit := emit_no_fire (setErr st id₀ none) id₀
          (getStaticHeader env index) _ e1 hs rfl
        simp only [hemit] at h
        cases h
        refine ⟨⟨_, findReq_updateReq_some (setErr st id₀ none) id₀
          (fun q => { q with uncompressed := q.uncompressed + headerBytes (getStaticHeader env index), pending := q.pending - 1 })
          (fun _ => rfl) _ e1, hs⟩,
          onlyHeaders_singleton id₀ _ _⟩
      · cases h
        exact ⟨⟨_, (findReq_congr rfl id₀).trans e1, hs⟩, onlyHeaders_nil id₀⟩

theorem decodeLiteralValue_ok (env : Env) (st : State) (id₀ : Nat)
    (bs : List Nat) (indexing : Bool) (newIndex : Nat) (nf : NameFuture)
    (r : DecodeRequest) (hr : findReq st id₀ = some r)
    (hs : r.allSubmitted = false) {st' : State} {ev : List Event}
    {rest : List Nat}
    (h : decodeLiteralValue env st id₀ bs indexing newIndex nf = (st', ev, rest)) :
    HandlerOK id₀ st' ev := by
  have e1 := findReq_setErr_self st id₀ none r hr
  simp only [decodeLiteralValue] at h
  split at h
  · cases h
    exact ⟨⟨_, findReq_setErr_self st id₀ _ r hr, hs⟩, onlyHeaders_nil id₀⟩
  · rename_i pr value rst heqv
    split at h
    · rename_i hd
      have eA : findReq { setErr st id₀ none with pendingDecodeBytes :=
          (setErr st id₀ none).pendingDecodeBytes + value.length - value.length }
          id₀ = some { r with err := none } :=
        (findReq_congr rfl id₀).trans e1
      have hemit := emit_no_fire _ id₀ ⟨hd.name, value⟩ _ eA hs rfl
      simp only [hemit] at h
      split at h <;>
      · cases h
        refine ⟨⟨{ r with err := none, uncompressed := r.uncompressed + headerBytes { name := hd.name, value := value }, pending := r.pending - 1 }, ?_, hs⟩, onlyHeaders_singleton id₀ _ _⟩
        exact (findReq_congr rfl id₀).trans
          (findReq_updateReq_some _ id₀
            (fun q => { q with uncompressed := q.uncompressed + headerBytes { name := hd.name, value := value }, pending := q.pending - 1 })
            (fun _ => rfl) _ eA)
    · cases h
      exact ⟨⟨_, (findReq_congr rfl id₀).trans e1, hs⟩, onlyHeaders_nil id₀⟩

theorem decodeLiteralName_ok (env : Env) (st : State) (id₀ : Nat)
    (bs : List Nat) (nbits : Nat) (indexing : Bool) (newIndex : Nat)
    (r : DecodeRequest) (hr : findReq st id₀ = some r)
    (hs : r.allSubmitted = false) {st' : State} {ev : List Event}
    {rest : List Nat}
    (h : decodeLiteralName env st id₀ bs nbits indexing newIndex = (st', ev, rest)) :
    HandlerOK id₀ st' ev := by
  have e1 := findReq_setErr_self st id₀ none r hr
  simp only [decodeLiteralName] at h
  split at h
  · split at h
    · cases h
      exact ⟨⟨_, findReq_setErr_self st id₀ _ r hr, hs⟩, onlyHeaders_nil id₀⟩
    · split at h
      · cases h
        exact ⟨⟨_, findReq_setErr_self (setErr st id₀ none) id₀ _ _ e1, hs⟩,
          onlyHeaders_nil id₀⟩
      · split at h
        · exact decodeLiteralValue_ok env _ id₀ _ _ _ _ _ e1 hs h
        · exact decodeLiteralValue_ok env _ id₀ _ _ _ _ _ e1 hs h
  · split at h
    · cases h
      exact ⟨⟨_, findReq_setErr_self st id₀ _ r hr, hs⟩, onlyHeaders_nil id₀⟩
    · exact decodeLiteralValue_ok env _ id₀ _ _ _ _ _ e1 hs h

theorem decodeLiteralHeader_ok (env : Env) (st : State) (id₀ : Nat)
    (bs : List Nat) (r : DecodeRequest) (hr : findReq st id₀ = some r)
    (hs : r.allSubmitted = false) {st' : State} {ev : List Event}
    {rest : List Nat} (h : decodeLiteralHeader env st id₀ bs = (st', ev, rest)) :
    HandlerOK id₀ st' ev := by
  have e1 := findReq_setErr_self st id₀ none r hr
  simp only [decodeLiteralHeader] at h
  split at h
  · split at h
    · cases h
      exact ⟨⟨_, findReq_setErr_self st id₀ _ r hr, hs⟩, onlyHeaders_nil id₀⟩
    · split at h
      · cases h
        exact ⟨⟨_, findReq_setErr_self (setErr st id₀ none) id₀ _ _ e1, hs⟩,
          onlyHeaders_nil id₀⟩
      · split at h
        · cases h
          exact ⟨⟨_, findReq_setErr_self (setErr st id₀ none) id₀ _ _ e1, hs⟩,
            onlyHeaders_nil id₀⟩
        · exact decodeLiteralName_ok env _ id₀ _ _ _ _ _ e1 hs h
  · split at h
    · exact decodeDelete_ok env st id₀ bs r hr hs h
    · exact decodeLiteralName_ok env st id₀ bs 4 false 0 r hr hs h

theorem decodeHeader_ok (env : Env) (st : State) (id₀ : Nat) (bs : List Nat)
    (r : DecodeRequest) (hr : findReq st id₀ = some r)
    (hs : r.allSubmitted = false) {st' : State} {ev : List Event}
    {rest : List Nat} (h : decodeHeader env st id₀ bs = (st', ev, rest)) :
    HandlerOK id₀ st' ev := by
  simp only [decodeHeader] at h
  split at h
  · exact decodeIndexedHeader_ok env st id₀ bs r hr hs h
  · exact decodeLiteralHeader_ok env st id₀ bs r hr hs h

theorem decodeLoop_ok (env : Env) (fuel : Nat) :
    ∀ (st : State) (id₀ : Nat) (bs : List Nat) (r : DecodeRequest),
      findReq st id₀ = some r → r.allSubmitted = false →
      ∀ {st' : State} {ev : List Event} {rest : List Nat},
        decodeLoop env fuel st id₀ bs = (st', ev, rest) →
        HandlerOK id₀ st' ev := by
  induction fuel with
  | zero =>
    intro st id₀ bs r hr hs st' ev rest h
    cases h
    exact ⟨⟨r, hr, hs⟩, onlyHeaders_nil id₀⟩
  | succ fuel ih =>
    intro st id₀ bs r hr hs st' ev rest h
    simp only [decodeLoop, hr] at h
    split at h
    · cases h
      exact ⟨⟨r, hr, hs⟩, onlyHeaders_nil id₀⟩
    · have hr1 := findReq_updateReq_some st id₀
        (fun q => { q with pending := q.pending + 1 }) (fun _ => rfl) r hr
      obtain ⟨⟨r₂, hr₂, hs₂⟩, hev1⟩ := decodeHeader_ok env
        (updateReq st id₀ (fun q => { q with pending := q.pending + 1 }))
        id₀ bs _ hr1 hs (triple_eta _)
      obtain ⟨ha, hev2⟩ := ih
        ((decodeHeader env
          (updateReq st id₀ (fun q => { q with pending := q.pending + 1 }))
          id₀ bs).1) id₀
        ((decodeHeader env
          (updateReq st id₀ (fun q => { q with pending := q.pending + 1 }))
          id₀ bs).2.2) r₂ hr₂ hs₂ (triple_eta _)
      cases h
      exact ⟨ha, onlyHeaders_append hev1 hev2⟩

/-! ## Call-boundary characterization and dead-request lemmas -/

theorem isTerminalFor_onHeader (id j : Nat) (n v : List Nat) :
    isTerminalFor id (Event.onHeader j n v) = false := rfl

/-- The full characterization of one `decodeStreaming` call: the returned
boolean is true exactly when a terminal callback for the fresh request is
among the call's events, and in that case the request has left the active
list. -/
theorem decodeStreaming_call_spec (env : Env) (st : State) (bs : List Nat)
    {st₁ : State} {ev₁ : List Event} {done : Bool}
    (h : decodeStreaming env st bs = (st₁, ev₁, done)) :
    (done = true ↔ ∃ e ∈ ev₁, isTerminalFor st.nextReqId e = true) ∧
    (done = true → findReq st₁ st.nextReqId = none) := by
  rcases hL : (decodeLoop env (bs.length + 1) { st with decodeRequests := { id := st.nextReqId, pending := 0, allSubmitted := false, err := none, uncompressed := 0, consumedBytes := 0 } :: st.decodeRequests, nextReqId := st.nextReqId + 1 } st.nextReqId bs) with ⟨LA, LB, LC⟩
  rcases hC : (checkComplete (updateReq LA st.nextReqId (fun q =>
      { q with allSubmitted := !q.err.isSome,
               consumedBytes := bs.length - LC.length })) st.nextReqId)
    with ⟨CA, CB, CC⟩
  simp only [decodeStreaming, hL, hC] at h
  cases h
  have hr0 : findReq { st with decodeRequests := { id := st.nextReqId, pending := 0, allSubmitted := false, err := none, uncompressed := 0, consumedBytes := 0 } :: st.decodeRequests, nextReqId := st.nextReqId + 1 } st.nextReqId = some { id := st.nextReqId, pending := 0, allSubmitted := false, err := none, uncompressed := 0, consumedBytes := 0 } :=
    findReq_head { st with decodeRequests := { id := st.nextReqId, pending := 0, allSubmitted := false, err := none, uncompressed := 0, consumedBytes := 0 } :: st.decodeRequests, nextReqId := st.nextReqId + 1 } { id := st.nextReqId, pending := 0, allSubmitted := false, err := none, uncompressed := 0, consumedBytes := 0 } st.decodeRequests rfl
  obtain ⟨⟨r', hr', hs'⟩, hevL⟩ :=
    decodeLoop_ok env (bs.length + 1) _ st.nextReqId bs _ hr0 rfl hL
  have hU := findReq_updateReq_some LA st.nextReqId (fun q =>
    { q with allSubmitted := !q.err.isSome,
             consumedBytes := bs.length - LC.length }) (fun _ => rfl) r' hr'
  have hnoL : ∀ e ∈ LB, isTerminalFor st.nextReqId e = false := by
    intro e he
    obtain ⟨n, v, rfl⟩ := hevL e he
    exact isTerminalFor_onHeader st.nextReqId st.nextReqId n v
  by_cases hc1 : ({ r' with allSubmitted := !r'.err.isSome, consumedBytes := bs.length - LC.length } : DecodeRequest).pending = 0 ∧ ({ r' with allSubmitted := !r'.err.isSome, consumedBytes := bs.length - LC.length } : DecodeRequest).allSubmitted
  · rw [checkComplete_fires_complete _ st.nextReqId _ hU hc1] at hC
    injection hC with hCA hrest
    injection hrest with hCB hCC
    subst hCA; subst hCB; subst hCC
    constructor
    · constructor
      · intro _
        exact ⟨Event.onHeadersComplete st.nextReqId r'.uncompressed,
          List.mem_append.mpr (Or.inr (List.mem_singleton.mpr rfl)),
          by simp [isTerminalFor]⟩
      · intro _; rfl
    · intro _
      exact (findReq_congr rfl st.nextReqId).trans
        (findReq_eraseReq_self _ st.nextReqId)
  · cases herr : ({ r' with allSubmitted := !r'.err.isSome, consumedBytes := bs.length - LC.length } : DecodeRequest).err with
    | none =>
      rw [checkComplete_no_fire _ st.nextReqId _ hU hc1 herr] at hC
      injection hC with hCA hrest
      injection hrest with hCB hCC
      subst hCA; subst hCB; subst hCC
      constructor
      · constructor
        · intro hcc; cases hcc
        · rintro ⟨e, he, hterm⟩
          rw [List.append_nil] at he
          rw [hnoL e he] at hterm
          cases hterm
      · intro hcc; cases hcc
    | some e0 =>
      rw [checkComplete_fires_error _ st.nextReqId _ e0 hU hc1 herr] at hC
      injection hC with hCA hrest
      injection hrest with hCB hCC
      subst hCA; subst hCB; subst hCC
      constructor
      · constructor
        · intro _
          exact ⟨Event.onDecodeError st.nextReqId e0,
            List.mem_append.mpr (Or.inr (List.mem_singleton.mpr rfl)),
            by simp [isTerminalFor]⟩
        · intro _; rfl
      · intro _
        exact (findReq_congr rfl st.nextReqId).trans
          (findReq_eraseReq_self _ st.nextReqId)

/-- A trace with no streaming-callback invocation for the given request. -/
def NoEventsFor (id : Nat) (evs : List Event) : Prop :=
  ∀ e ∈ evs, taggedBy id e = false

theorem noEventsFor_nil (id : Nat) : NoEventsFor id [] :=
  fun e he => absurd he (List.not_mem_nil e)

theorem checkComplete_other (st : State) (j id : Nat) (hne : id ≠ j) :
    findReq (checkComplete st j).1 id = findReq st id ∧
    NoEventsFor id (checkComplete st j).2.1 := by
  cases hf : findReq st j with
  | none =>
    rw [checkComplete_of_findReq_none st j hf]
    exact ⟨rfl, noEventsFor_nil id⟩
  | some r =>
    by_cases hc : r.pending = 0 ∧ r.allSubmitted
    · rw [checkComplete_fires_complete st j r hf hc]
      refine ⟨findReq_eraseReq_other st j id hne, ?_⟩
      intro e he
      rw [List.mem_singleton] at he
      subst he
      simp [taggedBy, Ne.symm hne]
    · cases herr : r.err with
      | some e0 =>
        rw [checkComplete_fires_error st j r e0 hf hc herr]
        refine ⟨findReq_eraseReq_other st j id hne, ?_⟩
        intro e he
        rw [List.mem_singleton] at he
        subst he
        simp [taggedBy, Ne.symm hne]
      | none =>
        rw [checkComplete_no_fire st j r hf hc herr]
        exact ⟨rfl, noEventsFor_nil id⟩

theorem emit_other (st : State) (j id : Nat) (hne : id ≠ j)
    (header : HPACKHeader) :
    findReq (emit st j header).1 id = findReq st id ∧
    NoEventsFor id (emit st j header).2 := by
  unfold emit
  rcases hCC : (checkComplete (updateReq st j (fun q => { q with uncompressed := q.uncompressed + headerBytes header, pending := q.pending - 1 })) j) with ⟨CA, CB, CC⟩
  have hother := checkComplete_other (updateReq st j (fun q => { q with uncompressed := q.uncompressed + headerBytes header, pending := q.pending - 1 })) j id hne
  rw [hCC] at hother
  simp only [hCC]
  refine ⟨hother.1.trans (findReq_updateReq_other st j id hne _ (fun _ => rfl)), ?_⟩
  intro e he
  rcases List.mem_cons.mp he with rfl | he2
  · simp [taggedBy, Ne.symm hne]
  · exact hother.2 e he2

theorem findReq_setErr_other (st : State) (j id : Nat) (hne : id ≠ j)
    (e : Option DecodeError) :
    findReq (setErr st j e) id = findReq st id := by
  unfold setErr
  exact findReq_updateReq_other st j id hne _ (fun _ => rfl)

theorem runContinuation_dead (env : Env) (st : State) (op : PendingOp)
    (out : Outcome) (id : Nat) (hdead : findReq st id = none)
    {st' : State} {ev : List Event}
    (h : runContinuation env st op out = (st', ev)) :
    findReq st' id = none ∧ NoEventsFor id ev := by
  cases op with
  | indexedHdr j ix =>
    cases out with
    | success res =>
      simp only [runContinuation] at h
      split at h
      · rename_i hguard
        have hne : id ≠ j := by
          intro heq
          rw [← heq, hdead] at hguard
          cases hguard
        have := emit_other st j id hne res
        rw [h] at this
        exact ⟨this.1.trans hdead, this.2⟩
      · cases h; exact ⟨hdead, noEventsFor_nil id⟩
    | timeout =>
      simp only [runContinuation] at h
      split at h
      · rename_i hguard
        have hne : id ≠ j := by
          intro heq
          rw [← heq, hdead] at hguard
          cases hguard
        cases h
        have := checkComplete_other (setErr st j (some .timeout)) j id hne
        refine ⟨this.1.trans ((findReq_setErr_other st j id hne _).trans hdead),
          this.2⟩
      · cases h; exact ⟨hdead, noEventsFor_nil id⟩
    | brokenPromise => cases h; exact ⟨hdead, noEventsFor_nil id⟩
    | runtimeError =>
      simp only [runContinuation] at h
      split at h
      · rename_i hguard
        have hne : id ≠ j := by
          intro heq
          rw [← heq, hdead] at hguard
          cases hguard
        cases h
        have := checkComplete_other (setErr st j (some .invalidIndex)) j id hne
        refine ⟨this.1.trans ((findReq_setErr_other st j id hne _).trans hdead),
          this.2⟩
      · cases h; exact ⟨hdead, noEventsFor_nil id⟩
  | literalHdr j value indexing newIndex nameIndex =>
    cases out with
    | success res =>
      simp only [runContinuation] at h
      split at h
      · rename_i hguard
        have hdead0 : findReq { st with pendingDecodeBytes :=
            st.pendingDecodeBytes - value.length } id = none :=
          (findReq_congr rfl id).trans hdead
        have hne : id ≠ j := by
          intro heq
          rw [← heq, hdead0] at hguard
          cases hguard
        have hem := emit_other { st with pendingDecodeBytes :=
          st.pendingDecodeBytes - value.length } j id hne ⟨res.name, value⟩
        cases h
        split
        · exact ⟨(findReq_congr rfl id).trans (hem.1.trans hdead0), hem.2⟩
        · exact ⟨hem.1.trans hdead0, hem.2⟩
      · cases h
        exact ⟨(findReq_congr rfl id).trans hdead, noEventsFor_nil id⟩
    | timeout =>
      simp only [runContinuation] at h
      split at h
      · rename_i hguard
        have hne : id ≠ j := by
          intro heq
          rw [← heq, hdead] at hguard
          cases hguard
        cases h
        have := checkComplete_other (setErr st j (some .timeout)) j id hne
        refine ⟨this.1.trans ((findReq_setErr_other st j id hne _).trans hdead),
          this.2⟩
      · cases h; exact ⟨hdead, noEventsFor_nil id⟩
    | brokenPromise => cases h; exact ⟨hdead, noEventsFor_nil id⟩
    | runtimeError =>
      simp only [runContinuation] at h
      split at h
      · rename_i hguard
        have hne : id ≠ j := by
          intro heq
          rw [← heq, hdead] at hguard
          cases hguard
        cases h
        have := checkComplete_other (setErr st j (some .invalidIndex)) j id hne
        refine ⟨this.1.trans ((findReq_setErr_other st j id hne _).trans hdead),
          this.2⟩
      · cases h; exact ⟨hdead, noEventsFor_nil id⟩
  | deleteOp d =>
    cases out <;> simp only [runContinuation] at h <;> cases h <;>
      refine ⟨hdead, ?_⟩ <;> intro e he <;>
      first
      | exact absurd he (List.not_mem_nil e)
      | (rw [List.mem_singleton] at he; subst he; rfl)

theorem deliverOutcome_dead (env : Env) (st : State) (i : Nat) (out : Outcome)
    (id : Nat) (hdead : findReq st id = none) {st' : State} {ev : List Event}
    (h : deliverOutcome env st i out = (st', ev)) :
    findReq st' id = none ∧ NoEventsFor id ev := by
  simp only [deliverOutcome] at h
  split at h
  · cases h; exact ⟨hdead, noEventsFor_nil id⟩
  · exact runContinuation_dead env { st with pendingOps := st.pendingOps.eraseIdx i }
      _ out id ((findReq_congr rfl id).trans hdead) h

theorem runOutcomes_dead (env : Env) (ds : List (Nat × Outcome)) :
    ∀ (st : State) (id : Nat), findReq st id = none →
      ∀ {st' : State} {ev : List Event}, runOutcomes env st ds = (st', ev) →
        findReq st' id = none ∧ NoEventsFor id ev := by
  induction ds with
  | nil =>
    intro st id hdead st' ev h
    cases h
    exact ⟨hdead, noEventsFor_nil id⟩
  | cons d ds ih =>
    intro st id hdead st' ev h
    rcases d with ⟨i, out⟩
    simp only [runOutcomes] at h
    cases h
    obtain ⟨hd1, he1⟩ := deliverOutcome_dead env st i out id hdead
      (Prod.mk.eta (p := deliverOutcome env st i out)).symm
    obtain ⟨hd2, he2⟩ := ih (deliverOutcome env st i out).1 id hd1
      (Prod.mk.eta (p := runOutcomes env (deliverOutcome env st i out).1 ds)).symm
    refine ⟨hd2, ?_⟩
    intro e he
    rcases List.mem_append.mp he with hh | hh
    · exact he1 e hh
    · exact he2 e hh

/-! ## Claim theorems -/

/-- C1: for every call to `decodeStreaming` — over any instruction stream,
any schedule of asynchronous resolution outcomes, and including the final
engine destruction — exactly one of the streaming callback's
`onHeadersComplete` and `onDecodeError` is invoked for that decode call,
and it is invoked exactly once. -/
theorem decodeStreaming_terminal_exactly_once (env : Env) (st : State)
    (bs : List Nat) (ds : List (Nat × Outcome)) {st₁ st₂ st₃ : State}
    {ev₁ ev₂ ev₃ : List Event} {done : Bool}
    (h1 : decodeStreaming env st bs = (st₁, ev₁, done))
    (h2 : runOutcomes env st₁ ds = (st₂, ev₂))
    (h3 : destructor st₂ = (st₃, ev₃)) :
    countTerminal st.nextReqId (ev₁ ++ ev₂ ++ ev₃) = 1 := by
  have t1 := decodeStreaming_track env st bs h1
  have t2 := runOutcomes_track env ds st₁ st.nextReqId h2
  have t3 := destructorLoop_track st₂.decodeRequests.length st₂ st.nextReqId h3
  have hempty : st₃.decodeRequests = [] := by
    have := destructor_empties st₂
    rw [h3] at this
    exact this
  have h4 : alive st₃ st.nextReqId = 0 := alive_of_empty st₃ st.nextReqId hempty
  unfold TrackStep at t2 t3
  rw [countTerminal_append, countTerminal_append]
  omega

/-- Witness for C1 at a concrete run: the stream `[indexed(static 2)]`
against the ten-entry static table, no asynchronous outcomes. -/
theorem decodeStreaming_terminal_exactly_once_witness :
    countTerminal 0
      ([Event.onHeader 0 [2] [2, 2], Event.onHeadersComplete 0 35] ++ [] ++ []) = 1 :=
  decodeStreaming_terminal_exactly_once env10 initState [0x82] [] rfl rfl rfl

/-- C10: the boolean `decodeStreaming` returns is true if and only if the
decode request reached a terminal state during the call (one of its
`onHeadersComplete` / `onDecodeError` callbacks is among the call's
events), and in that case the request has been removed from the engine's
active-request list by the time the call returns. -/
theorem decodeStreaming_done_iff_terminal (env : Env) (st : State)
    (bs : List Nat) {st₁ : State} {ev₁ : List Event} {done : Bool}
    (h : decodeStreaming env st bs = (st₁, ev₁, done)) :
    (done = true ↔ ∃ e ∈ ev₁, isTerminalFor st.nextReqId e = true) ∧
    (done = true → findReq st₁ st.nextReqId = none) :=
  decodeStreaming_call_spec env st bs h

/-- Witness for C10 at the concrete stream `[indexed(static 2)]`. -/
theorem decodeStreaming_done_iff_terminal_witness :
    (true = true ↔ ∃ e ∈ [Event.onHeader 0 [2] [2, 2],
        Event.onHeadersComplete 0 35], isTerminalFor 0 e = true) ∧
    (true = true → findReq { decodeRequests := [], pendingOps := [], pendingDecodeBytes := 0, queuedBytes := 0, table := [], nextReqId := 1 } 0 = none) :=
  decodeStreaming_done_iff_terminal env10 initState [0x82] rfl

/-- C2 counterexample: on the stream `[0x8B, 0xFF]` (a dynamic indexed
header that queues an asynchronous resolution, then a truncated indexed
header), the decode call reports `onDecodeError BUFFER_UNDERFLOW` during
the call itself, while the first instruction's resolution is still in
flight in `pendingOps` — the request does not wait for in-flight
resolutions to drain before transitioning to FAILED. -/
theorem syncError_fails_before_drain :
    (decodeStreaming env10 initState [0x8B, 0xFF]).2.1 =
      [Event.onDecodeError 0 DecodeError.bufferUnderflow] ∧
    (decodeStreaming env10 initState [0x8B, 0xFF]).2.2 = true ∧
    (decodeStreaming env10 initState [0x8B, 0xFF]).1.pendingOps =
      [PendingOp.indexedHdr 0 11] := by
  decide

/-- C2 (amended): a decode error reported during the call makes the
request terminal immediately — without waiting for in-flight resolutions —
and it is final: the request leaves the active list and no later
asynchronous outcome delivers any further callback to it, so the first
reported error wins. -/
theorem syncError_first_error_wins (env : Env) (st : State) (bs : List Nat)
    (e : DecodeError) {st₁ : State} {ev₁ : List Event} {done : Bool}
    (h1 : decodeStreaming env st bs = (st₁, ev₁, done))
    (he : Event.onDecodeError st.nextReqId e ∈ ev₁) :
    done = true ∧ findReq st₁ st.nextReqId = none ∧
    (∀ (ds : List (Nat × Outcome)) {st₂ : State} {ev₂ : List Event},
      runOutcomes env st₁ ds = (st₂, ev₂) → NoEventsFor st.nextReqId ev₂) := by
  obtain ⟨hiff, hrem⟩ := decodeStreaming_call_spec env st bs h1
  have hdone : done = true := hiff.mpr ⟨_, he, by simp [isTerminalFor]⟩
  refine ⟨hdone, hrem hdone, ?_⟩
  intro ds st₂ ev₂ h2
  exact (runOutcomes_dead env ds st₁ st.nextReqId (hrem hdone) h2).2

/-- The accumulator of the continuation-byte decoder never decreases. -/
theorem decodeIntRest_ge :
    ∀ (l : List Nat) (acc shift v : Nat) (r : List Nat),
      decodeIntRest l acc shift = .ok (v, r) → acc ≤ v := by
  intro l
  induction l with
  | nil => intro acc shift v r h; cases h
  | cons b rest ih =>
    intro acc shift v r h
    simp only [decodeIntRest] at h
    split at h
    · cases h
    · split at h
      · have := ih _ _ _ _ h
        omega
      · cases h
        omega

/-- C3: every position that takes an index in an indexed-header or
literal-with-indexing instruction rejects index 0 with `INVALID_INDEX`:
an indexed header whose 7-bit index decodes to 0 records `INVALID_INDEX`;
a literal-with-indexing whose 6-bit target decodes to 0 records
`INVALID_INDEX` (for any static table, in particular with the dynamic
table empty); and the indexed-name position cannot even decode to 0, since
it is entered only when the prefix bits are nonzero. -/
theorem index_zero_always_invalid :
    (∀ (env : Env) (st : State) (id₀ : Nat) (bs rest : List Nat),
      decodeInteger 7 bs = .ok (0, rest) →
      decodeIndexedHeader env st id₀ bs =
        (setErr (setErr st id₀ none) id₀ (some .invalidIndex), [], rest)) ∧
    (∀ (env : Env) (st : State) (id₀ : Nat) (bs rest : List Nat),
      (bs.headD 0) % 256 / 64 % 2 = 1 →
      decodeInteger 6 bs = .ok (0, rest) →
      decodeLiteralHeader env st id₀ bs =
        (setErr (setErr st id₀ none) id₀ (some .invalidIndex), [], rest)) ∧
    (∀ (nbits : Nat) (bs : List Nat) (v : Nat) (rest : List Nat),
      decodeInteger nbits bs = .ok (v, rest) →
      (bs.headD 0) % 256 % 2 ^ nbits ≠ 0 → v ≠ 0) := by
  refine ⟨?_, ?_, ?_⟩
  · intro env st id₀ bs rest h
    simp [decodeIndexedHeader, h]
  · intro env st id₀ bs rest hb h6
    simp only [decodeLiteralHeader]
    rw [if_pos hb]
    simp only [h6]
    have hstat : isStatic env 0 = true := by simp [isStatic]
    rw [if_pos hstat]
  · intro nbits bs v rest h hp
    cases bs with
    | nil => cases h
    | cons b tl =>
      simp only [List.headD_cons] at hp
      simp only [decodeInteger] at h
      split at h
      · rename_i hesc
        have := decodeIntRest_ge tl _ 0 v rest h
        omega
      · cases h
        exact hp

/-- Witness for C3: index 0 in the indexed-header position (`[0x80]`), in
the new-entry target position (`[0x40]`), and a nonzero-prefix name index
decoding to a nonzero value (`[0x85]`). -/
theorem index_zero_always_invalid_witness :
    decodeIndexedHeader env10 stOne 5 [0x80] =
      (setErr (setErr stOne 5 none) 5 (some .invalidIndex), [], []) ∧
    decodeLiteralHeader env10 stOne 5 [0x40] =
      (setErr (setErr stOne 5 none) 5 (some .invalidIndex), [], []) ∧
    (5 : Nat) ≠ 0 :=
  ⟨index_zero_always_invalid.1 env10 stOne 5 [0x80] [] rfl,
   index_zero_always_invalid.2.1 env10 stOne 5 [0x40] [] rfl rfl,
   index_zero_always_invalid.2.2 7 [0x85] 5 [] rfl (by decide)⟩

/-- C4 (code bug): a delete instruction with a zero reference count
(`[0x20]`) or with a static target index (`[0x21, 0x05]`) aborts the
instruction but records NO decode error on the request: the call returns
`false`, no callback fires, and the request stays active with `pending`
still elevated (1) and `err = none`, so it can never complete. -/
theorem delete_invalid_records_no_error :
    ((decodeStreaming env10 initState [0x20]).2.1 = [] ∧
     (decodeStreaming env10 initState [0x20]).2.2 = false ∧
     findReq (decodeStreaming env10 initState [0x20]).1 0 =
       some { id := 0, pending := 1, allSubmitted := true, err := none, uncompressed := 0, consumedBytes := 1 }) ∧
    ((decodeStreaming env10 initState [0x21, 0x05]).2.1 = [] ∧
     (decodeStreaming env10 initState [0x21, 0x05]).2.2 = false ∧
     findReq (decodeStreaming env10 initState [0x21, 0x05]).1 0 =
       some { id := 0, pending := 1, allSubmitted := true, err := none, uncompressed := 0, consumedBytes := 2 }) := by
  decide

/-- C5: a delete instruction never produces a header emission — its
synchronous handling delivers no event at all; a validated delete releases
its `pending` contribution immediately at submission while queuing the
asynchronous remove; and the remove operation's continuation, under every
outcome (success, timeout, broken promise, table error), leaves the
request state untouched and invokes no streaming callback of any request. -/
theorem delete_no_emission_pending_released :
    (∀ (env : Env) (st : State) (id₀ : Nat) (bs : List Nat),
      (decodeDelete env st id₀ bs).2.1 = []) ∧
    (∀ (env : Env) (st : State) (id₀ : Nat) (bs r1 r2 : List Nat)
       (rc di : Nat),
      decodeInteger 5 bs = .ok (rc, r1) → rc ≠ 0 →
      decodeInteger 8 r1 = .ok (di, r2) → ¬ (di = 0 ∨ isStatic env di) →
      decodeDelete env st id₀ bs =
        (addOp (updateReq (setErr (setErr st id₀ none) id₀ none) id₀
          (fun q => { q with pending := q.pending - 1 })) (.deleteOp di),
         [], r2)) ∧
    (∀ (env : Env) (st : State) (d : Nat) (out : Outcome),
      (runContinuation env st (.deleteOp d) out).1 = st ∧
      ∀ e ∈ (runContinuation env st (.deleteOp d) out).2,
        ∀ id, taggedBy id e = false) := by
  refine ⟨?_, ?_, ?_⟩
  · intro env st id₀ bs
    rcases h : decodeDelete env st id₀ bs with ⟨a, ev, r⟩
    simp only [decodeDelete] at h
    split at h
    · cases h; rfl
    · split at h
      · cases h; rfl
      · split at h
        · cases h; rfl
        · split at h
          · cases h; rfl
          · cases h; rfl
  · intro env st id₀ bs r1 r2 rc di h5 hrc h8 hdi
    simp only [decodeDelete, h5]
    rw [if_neg hrc, h8]
    simp only []
    rw [if_neg hdi]
  · intro env st d out
    cases out <;> refine ⟨rfl, ?_⟩ <;> intro e he <;>
      simp only [runContinuation] at he <;>
      first
      | exact absurd he (List.not_mem_nil e)
      | (rw [List.mem_singleton] at he; subst he; intro id; rfl)

/-- Witness for C5: a validated delete (`[0x21, 0x0F]`, refcount 1, target
15 = dynamic 5) and its remove continuation on success. -/
theorem delete_no_emission_pending_released_witness :
    (decodeDelete env10 stOne 5 [0x20]).2.1 = [] ∧
    decodeDelete env10 stOne 5 [0x21, 0x0F] =
      (addOp (updateReq (setErr (setErr stOne 5 none) 5 none) 5
        (fun q => { q with pending := q.pending - 1 })) (.deleteOp 15), [], []) ∧
    ((runContinuation env10 stOne (.deleteOp 15) (.success ⟨[], []⟩)).1 = stOne ∧
     ∀ e ∈ (runContinuation env10 stOne (.deleteOp 15) (.success ⟨[], []⟩)).2,
       ∀ id, taggedBy id e = false) :=
  ⟨delete_no_emission_pending_released.1 env10 stOne 5 [0x20],
   delete_no_emission_pending_released.2.1 env10 stOne 5 [0x21, 0x0F] [0x0F] []
     1 15 rfl (by decide) rfl (by decide),
   delete_no_emission_pending_released.2.2 env10 stOne 15 (.success ⟨[], []⟩)⟩

/-! ## Round-trip lemmas for the wire encoder -/

theorem decodeIntRest_encodeRest : ∀ (w acc shift : Nat) (t : List Nat),
    acc + w * 2 ^ shift < 2 ^ 32 →
    decodeIntRest (encodeRest w ++ t) acc shift = .ok (acc + w * 2 ^ shift, t) := by
  intro w
  induction w using Nat.strong_induction_on with
  | _ w ih =>
    intro acc shift t hbound
    rw [encodeRest]
    split
    · rename_i hw
      simp only [List.cons_append, List.nil_append, decodeIntRest]
      rw [show w % 256 % 128 = w from by omega,
          show w % 256 = w from by omega]
      rw [if_neg (Nat.not_le.mpr hbound), if_neg (by omega)]
      rfl
    · rename_i hw
      simp only [List.cons_append, decodeIntRest]
      rw [show (128 + w % 128) % 256 % 128 = w % 128 from by omega,
          show (128 + w % 128) % 256 = 128 + w % 128 from by omega]
      have h5 : (w % 128) * 2 ^ shift ≤ w * 2 ^ shift :=
        Nat.mul_le_mul_right _ (Nat.mod_le w 128)
      rw [if_neg (by omega), if_pos (by omega)]
      have h2 : (2 : Nat) ^ (shift + 7) = 2 ^ shift * 128 := by
        rw [pow_add]; norm_num
      have hw2 : w % 128 + 128 * (w / 128) = w := Nat.mod_add_div w 128
      have hkey : acc + (w % 128) * 2 ^ shift + (w / 128) * 2 ^ (shift + 7) =
          acc + w * 2 ^ shift := by
        rw [h2]
        conv_rhs => rw [← hw2]
        ring
      have hrec := ih (w / 128) (Nat.div_lt_self (by omega) (by omega))
        (acc + w % 128 * 2 ^ shift) (shift + 7) t (by rw [hkey]; exact hbound)
      exact hrec.trans (by rw [hkey])

theorem decodeInteger_encodeInteger (nbits base v : Nat) (t : List Nat)
    (hb : base % 2 ^ nbits = 0) (hlt : base + 2 ^ nbits ≤ 256)
    (hv : v < 2 ^ 32) :
    decodeInteger nbits (encodeInteger nbits base v ++ t) = .ok (v, t) := by
  have hpow : 0 < 2 ^ nbits := Nat.pos_pow_of_pos nbits (by omega)
  obtain ⟨k, hk⟩ := Nat.dvd_of_mod_eq_zero hb
  unfold encodeInteger
  split
  · rename_i hv2
    simp only [List.cons_append, decodeInteger]
    have hm1 : (base + v) % 256 = base + v := Nat.mod_eq_of_lt (by omega)
    have hm2 : (base + v) % 2 ^ nbits = v := by
      rw [hk, Nat.mul_add_mod, Nat.mod_eq_of_lt (by omega)]
    rw [hm1, hm2, if_neg (by omega)]
    rfl
  · rename_i hv2
    simp only [List.cons_append, decodeInteger]
    have hm1 : (base + (2 ^ nbits - 1)) % 256 = base + (2 ^ nbits - 1) :=
      Nat.mod_eq_of_lt (by omega)
    have hm2 : (base + (2 ^ nbits - 1)) % 2 ^ nbits = 2 ^ nbits - 1 := by
      rw [hk, Nat.mul_add_mod, Nat.mod_eq_of_lt (by omega)]
    rw [hm1, hm2, if_pos rfl]
    rw [decodeIntRest_encodeRest (v - (2 ^ nbits - 1)) (2 ^ nbits - 1) 0 t
      (by simp only [pow_zero, mul_one]; omega)]
    rw [show 2 ^ nbits - 1 + (v - (2 ^ nbits - 1)) * 2 ^ 0 = v from by
      simp only [pow_zero, mul_one]; omega]

theorem encodeInteger_headD (nbits base v : Nat) (more : List Nat) :
    ((encodeInteger nbits base v ++ more).headD 0) =
      base + min v (2 ^ nbits - 1) := by
  unfold encodeInteger
  split
  · rename_i hv
    simp only [List.cons_append, List.headD_cons]
    omega
  · rename_i hv
    simp only [List.cons_append, List.headD_cons]
    omega

theorem encodeInteger_ne_nil (nbits base v : Nat) :
    encodeInteger nbits base v ≠ [] := by
  unfold encodeInteger
  split <;> simp

theorem encodeInstr_ne_nil (instr : StaticInstr) : encodeInstr instr ≠ [] := by
  cases instr with
  | indexed i => exact encodeInteger_ne_nil 7 128 i
  | literalStaticName i v =>
    simp only [encodeInstr]
    intro h
    exact encodeInteger_ne_nil 4 0 i (List.append_eq_nil.mp h).1
  | literalName n v => simp [encodeInstr]

theorem decodeLiteral_raw (huff : List Nat → Option (List Nat)) (b : Nat)
    (tl : List Nat) (hb : ¬ (b % 256 / 128 % 2 = 1)) (len : Nat)
    (rest : List Nat) (hdec : decodeInteger 7 (b :: tl) = .ok (len, rest))
    (hlen : len ≤ rest.length) :
    decodeLiteral huff (b :: tl) = .ok (rest.take len, rest.drop len) := by
  unfold decodeLiteral
  simp only [hdec]
  rw [if_pos hlen, if_neg hb]

theorem decodeLiteral_encodeLiteralStr (huff : List Nat → Option (List Nat))
    (s t : List Nat) (hs : s.length < 2 ^ 32) :
    decodeLiteral huff (encodeLiteralStr s ++ t) = .ok (s, t) := by
  have hassoc : encodeLiteralStr s ++ t = encodeInteger 7 0 s.length ++ (s ++ t) := by
    simp [encodeLiteralStr]
  have hdec : decodeInteger 7 (encodeInteger 7 0 s.length ++ (s ++ t)) =
      .ok (s.length, s ++ t) :=
    decodeInteger_encodeInteger 7 0 s.length (s ++ t) (by norm_num) (by norm_num) hs
  have hhead := encodeInteger_headD 7 0 s.length (s ++ t)
  rw [hassoc]
  cases hh : encodeInteger 7 0 s.length with
  | nil => exact absurd hh (encodeInteger_ne_nil 7 0 s.length)
  | cons b r =>
    rw [hh, List.cons_append, List.headD_cons] at hhead
    have hb127 : min s.length (2 ^ 7 - 1) ≤ 127 := by
      exact le_trans (Nat.min_le_right _ _) (by norm_num)
    rw [hh, List.cons_append] at hdec
    rw [List.cons_append]
    rw [decodeLiteral_raw huff b (r ++ (s ++ t)) (by omega) s.length (s ++ t)
      hdec (by simp)]
    rw [List.take_left, List.drop_left]

theorem updateReq_comp (st : State) (id : Nat)
    (f g : DecodeRequest → DecodeRequest) (hf : ∀ q, (f q).id = q.id) :
    updateReq (updateReq st id f) id g = updateReq st id (fun q => g (f q)) := by
  unfold updateReq
  simp only [List.map_map]
  congr 1
  apply List.map_congr_left
  intro q _
  by_cases h : q.id = id
  · simp [Function.comp, h, hf]
  · simp [Function.comp, h]

/-! ## Synchronous processing of encoded static-only instructions -/

theorem decodeLiteralValue_ready_eq (env : Env) (st : State) (id₀ : Nat)
    (bs rest : List Nat) (v : List Nat) (hd : HPACKHeader) (r : DecodeRequest)
    (hr : findReq st id₀ = some r) (hs : r.allSubmitted = false)
    (hdecv : decodeLiteral env.huff bs = .ok (v, rest)) :
    decodeLiteralValue env st id₀ bs false 0 (.ready hd) =
      (updateReq st id₀ (fun q => { q with err := none, uncompressed := q.uncompressed + headerBytes ⟨hd.name, v⟩, pending := q.pending - 1 }),
       [Event.onHeader id₀ hd.name v], rest) := by
  have hre : findReq (setErr st id₀ none) id₀ = some { r with err := none } :=
    findReq_setErr_self st id₀ none r hr
  have hst3 : ({ setErr st id₀ none with pendingDecodeBytes := (setErr st id₀ none).pendingDecodeBytes + v.length - v.length } : State) = setErr st id₀ none := by
    rw [Nat.add_sub_cancel]
  have hemit := emit_no_fire (setErr st id₀ none) id₀ ⟨hd.name, v⟩ _ hre hs rfl
  simp only [decodeLiteralValue, hdecv, hst3, hemit]
  rw [if_neg Bool.false_ne_true]
  unfold setErr
  rw [updateReq_comp st id₀ (fun q => { q with err := none }) (fun q => { q with uncompressed := q.uncompressed + headerBytes { name := hd.name, value := v }, pending := q.pending - 1 }) (fun _ => rfl)]

theorem step_indexed (env : Env) (st : State) (id₀ : Nat) (i : Nat)
    (more : List Nat) (r : DecodeRequest) (hr : findReq st id₀ = some r)
    (hs : r.allSubmitted = false) (h1 : 1 ≤ i)
    (h2 : i ≤ env.staticTable.length) (h3 : i < 2 ^ 32) :
    decodeHeader env (updateReq st id₀ (fun q => { q with pending := q.pending + 1 })) id₀
        (encodeInteger 7 128 i ++ more) =
      (updateReq st id₀ (fun q => { q with err := none, uncompressed := q.uncompressed + headerBytes (getStaticHeader env i) }),
       [Event.onHeader id₀ (getStaticHeader env i).name (getStaticHeader env i).value],
       more) := by
  have hdec : decodeInteger 7 (encodeInteger 7 128 i ++ more) = .ok (i, more) :=
    decodeInteger_encodeInteger 7 128 i more (by norm_num) (by norm_num) h3
  have hhead := encodeInteger_headD 7 128 i more
  have hmin : min i (2 ^ 7 - 1) ≤ 127 := le_trans (Nat.min_le_right _ _) (by norm_num)
  have hbit : ((encodeInteger 7 128 i ++ more).headD 0) % 256 / 128 % 2 = 1 := by
    rw [hhead]; omega
  have hvalid : isValid env i = true := by
    simp only [isValid, isStatic, staticTableIsValid, globalToStaticIndex]
    rw [if_neg (by simp [h2])]
    simp [h1, h2]
  have hstat : isStatic env i = true := by simp [isStatic, h2]
  have hrP : findReq (updateReq st id₀ (fun q => { q with pending := q.pending + 1 })) id₀ = some { r with pending := r.pending + 1 } :=
    findReq_updateReq_some st id₀ (fun q => { q with pending := q.pending + 1 })
      (fun _ => rfl) r hr
  have hrE : findReq (setErr (updateReq st id₀ (fun q => { q with pending := q.pending + 1 })) id₀ none) id₀ = some { r with pending := r.pending + 1, err := none } :=
    findReq_setErr_self _ id₀ none _ hrP
  have hemit := emit_no_fire
    (setErr (updateReq st id₀ (fun q => { q with pending := q.pending + 1 })) id₀ none)
    id₀ (getStaticHeader env i) _ hrE hs rfl
  simp only [decodeHeader]
  rw [if_pos hbit]
  simp only [decodeIndexedHeader, hdec]
  have hcond : ¬ (i = 0 ∨ ¬ isValid env i = true) := by
    intro hcon
    rcases hcon with h | h
    · omega
    · exact h hvalid
  rw [if_neg hcond]
  rw [if_pos hstat]
  simp only [hemit]
  unfold setErr
  rw [updateReq_comp (updateReq st id₀ (fun q => { q with pending := q.pending + 1 })) id₀ (fun q => { q with err := none }) _ (fun _ => rfl)]
  rw [updateReq_comp st id₀ (fun q => { q with pending := q.pending + 1 }) _ (fun _ => rfl)]
  refine congr_arg₂ Prod.mk ?_ rfl
  refine congrArg (updateReq st id₀) (funext fun q => ?_)
  simp [add_sub_cancel_right]

theorem step_literalStaticName (env : Env) (st : State) (id₀ : Nat) (i : Nat)
    (v more : List Nat) (r : DecodeRequest) (hr : findReq st id₀ = some r)
    (hs : r.allSubmitted = false) (h1 : 1 ≤ i)
    (h2 : i ≤ env.staticTable.length) (h3 : i < 2 ^ 32)
    (hv : v.length < 2 ^ 32) :
    decodeHeader env (updateReq st id₀ (fun q => { q with pending := q.pending + 1 })) id₀
        (encodeInteger 4 0 i ++ (encodeLiteralStr v ++ more)) =
      (updateReq st id₀ (fun q => { q with err := none, uncompressed := q.uncompressed + headerBytes ⟨(getStaticHeader env i).name, v⟩ }),
       [Event.onHeader id₀ (getStaticHeader env i).name v],
       more) := by
  have hdec : decodeInteger 4 (encodeInteger 4 0 i ++ (encodeLiteralStr v ++ more)) = .ok (i, encodeLiteralStr v ++ more) :=
    decodeInteger_encodeInteger 4 0 i _ (by norm_num) (by norm_num) h3
  have hhead := encodeInteger_headD 4 0 i (encodeLiteralStr v ++ more)
  have hmin : min i (2 ^ 4 - 1) ≤ 15 := le_trans (Nat.min_le_right _ _) (by norm_num)
  have hmin1 : 1 ≤ min i (2 ^ 4 - 1) := le_min h1 (by norm_num)
  have hbit : ¬ ((encodeInteger 4 0 i ++ (encodeLiteralStr v ++ more)).headD 0 % 256 / 128 % 2 = 1) := by
    rw [hhead]; omega
  have hidx : ¬ ((encodeInteger 4 0 i ++ (encodeLiteralStr v ++ more)).headD 0 % 256 / 64 % 2 = 1) := by
    rw [hhead]; omega
  have hdel : ¬ ((encodeInteger 4 0 i ++ (encodeLiteralStr v ++ more)).headD 0 % 256 / 32 % 2 = 1) := by
    rw [hhead]; omega
  have hni : (encodeInteger 4 0 i ++ (encodeLiteralStr v ++ more)).headD 0 % 256 % 2 ^ 4 ≠ 0 := by
    rw [hhead]; omega
  have hvalid : isValid env i = true := by
    simp only [isValid, isStatic, staticTableIsValid, globalToStaticIndex]
    rw [if_neg (by simp [h2])]
    simp [h1, h2]
  have hstat : isStatic env i = true := by simp [isStatic, h2]
  have hrP : findReq (updateReq st id₀ (fun q => { q with pending := q.pending + 1 })) id₀ = some { r with pending := r.pending + 1 } :=
    findReq_updateReq_some st id₀ (fun q => { q with pending := q.pending + 1 })
      (fun _ => rfl) r hr
  have hrE : findReq (setErr (updateReq st id₀ (fun q => { q with pending := q.pending + 1 })) id₀ none) id₀ = some { r with pending := r.pending + 1, err := none } :=
    findReq_setErr_self _ id₀ none _ hrP
  have hready := decodeLiteralValue_ready_eq env
    (setErr (updateReq st id₀ (fun q => { q with pending := q.pending + 1 })) id₀ none)
    id₀ (encodeLiteralStr v ++ more) more v (getStaticHeader env i)
    { r with pending := r.pending + 1, err := none } hrE hs
    (decodeLiteral_encodeLiteralStr env.huff v more hv)
  simp only [decodeHeader]
  rw [if_neg hbit]
  simp only [decodeLiteralHeader]
  rw [if_neg hidx, if_neg hdel]
  simp only [decodeLiteralName]
  rw [if_pos hni]
  simp only [hdec]
  rw [if_neg (not_not_intro hvalid), if_pos hstat]
  rw [hready]
  unfold setErr
  rw [updateReq_comp (updateReq st id₀ (fun q => { q with pending := q.pending + 1 })) id₀ (fun q => { q with err := none }) _ (fun _ => rfl)]
  rw [updateReq_comp st id₀ (fun q => { q with pending := q.pending + 1 }) _ (fun _ => rfl)]
  refine congr_arg₂ Prod.mk ?_ rfl
  refine congrArg (updateReq st id₀) (funext fun q => ?_)
  simp [add_sub_cancel_right]

theorem step_literalName (env : Env) (st : State) (id₀ : Nat)
    (n v more : List Nat) (r : DecodeRequest) (hr : findReq st id₀ = some r)
    (hs : r.allSubmitted = false) (hn : n.length < 2 ^ 32)
    (hv : v.length < 2 ^ 32) :
    decodeHeader env (updateReq st id₀ (fun q => { q with pending := q.pending + 1 })) id₀
        (0 :: (encodeLiteralStr n ++ (encodeLiteralStr v ++ more))) =
      (updateReq st id₀ (fun q => { q with err := none, uncompressed := q.uncompressed + headerBytes ⟨n, v⟩ }),
       [Event.onHeader id₀ n v],
       more) := by
  have hrP : findReq (updateReq st id₀ (fun q => { q with pending := q.pending + 1 })) id₀ = some { r with pending := r.pending + 1 } :=
    findReq_updateReq_some st id₀ (fun q => { q with pending := q.pending + 1 })
      (fun _ => rfl) r hr
  have hrE : findReq (setErr (updateReq st id₀ (fun q => { q with pending := q.pending + 1 })) id₀ none) id₀ = some { r with pending := r.pending + 1, err := none } :=
    findReq_setErr_self _ id₀ none _ hrP
  have hdecn : decodeLiteral env.huff (encodeLiteralStr n ++ (encodeLiteralStr v ++ more)) = .ok (n, encodeLiteralStr v ++ more) :=
    decodeLiteral_encodeLiteralStr env.huff n _ hn
  have hready := decodeLiteralValue_ready_eq env
    (setErr (updateReq st id₀ (fun q => { q with pending := q.pending + 1 })) id₀ none)
    id₀ (encodeLiteralStr v ++ more) more v ⟨n, []⟩
    { r with pending := r.pending + 1, err := none } hrE hs
    (decodeLiteral_encodeLiteralStr env.huff v more hv)
  simp only [decodeHeader]
  rw [if_neg (by simp)]
  simp only [decodeLiteralHeader]
  rw [if_neg (by simp), if_neg (by simp)]
  simp only [decodeLiteralName]
  rw [if_neg (by simp)]
  simp only [List.tail_cons, hdecn]
  rw [hready]
  unfold setErr
  rw [updateReq_comp (updateReq st id₀ (fun q => { q with pending := q.pending + 1 })) id₀ (fun q => { q with err := none }) _ (fun _ => rfl)]
  rw [updateReq_comp st id₀ (fun q => { q with pending := q.pending + 1 }) _ (fun _ => rfl)]
  refine congr_arg₂ Prod.mk ?_ rfl
  refine congrArg (updateReq st id₀) (funext fun q => ?_)
  simp [add_sub_cancel_right]

theorem step_static (env : Env) (st : State) (id₀ : Nat) (instr : StaticInstr)
    (more : List Nat) (r : DecodeRequest) (hr : findReq st id₀ = some r)
    (hs : r.allSubmitted = false)
    (hvalid : instr.valid env.staticTable.length) :
    decodeHeader env (updateReq st id₀ (fun q => { q with pending := q.pending + 1 })) id₀
        (encodeInstr instr ++ more) =
      (updateReq st id₀ (fun q => { q with err := none, uncompressed := q.uncompressed + headerBytes (instrHeader env instr) }),
       [Event.onHeader id₀ (instrHeader env instr).name (instrHeader env instr).value],
       more) := by
  cases instr with
  | indexed i =>
    obtain ⟨h1, h2, h3⟩ := hvalid
    exact step_indexed env st id₀ i more r hr hs h1 h2 h3
  | literalStaticName i v =>
    obtain ⟨h1, h2, h3, hv⟩ := hvalid
    have hst := step_literalStaticName env st id₀ i v more r hr hs h1 h2 h3 hv
    simp only [encodeInstr, List.append_assoc, instrHeader]
    exact hst
  | literalName n v =>
    obtain ⟨hn, hv⟩ := hvalid
    have hst := step_literalName env st id₀ n v more r hr hs hn hv
    simp only [encodeInstr, List.cons_append, List.append_assoc, instrHeader]
    exact hst

theorem findReq_some_props (st : State) (id : Nat) (r : DecodeRequest)
    (h : findReq st id = some r) : r ∈ st.decodeRequests ∧ r.id = id := by
  simp only [findReq] at h
  exact ⟨List.mem_of_find?_eq_some h, by simpa using List.find?_some h⟩

theorem length_le_length_encodeInstrs (l : List StaticInstr) :
    l.length ≤ (encodeInstrs l).length := by
  induction l with
  | nil => simp [encodeInstrs]
  | cons a t ih =>
    have ha : 1 ≤ (encodeInstr a).length := by
      cases h : encodeInstr a with
      | nil => exact absurd h (encodeInstr_ne_nil a)
      | cons b r => simp
    simp only [encodeInstrs, List.map_cons, List.flatten_cons, List.length_append,
      List.length_cons]
    simp only [encodeInstrs] at ih
    omega

theorem decodeLoop_static (env : Env) :
    ∀ (l : List StaticInstr) (fuel : Nat) (st : State) (id₀ : Nat)
      (r : DecodeRequest),
      findReq st id₀ = some r → r.allSubmitted = false →
      (∀ q ∈ st.decodeRequests, q.id = id₀ → q.err = none) →
      (∀ instr ∈ l, instr.valid env.staticTable.length) →
      l.length < fuel →
      decodeLoop env fuel st id₀ (encodeInstrs l) =
        (updateReq st id₀ (fun q => { q with err := none, uncompressed := q.uncompressed + (l.map (fun j => headerBytes (instrHeader env j))).sum }),
         l.map (fun j => Event.onHeader id₀ (instrHeader env j).name (instrHeader env j).value),
         []) := by
  intro l
  induction l with
  | nil =>
    intro fuel st id₀ r hr hs herr hval hfuel
    cases fuel with
    | zero => omega
    | succ fuel' =>
      simp only [encodeInstrs, List.map_nil, List.flatten_nil, decodeLoop, hr]
      split
      · symm
        refine congr_arg₂ Prod.mk ?_ rfl
        unfold updateReq
        have hl : st.decodeRequests.map (fun q => if q.id = id₀ then { q with err := none, uncompressed := q.uncompressed + ([] : List Nat).sum } else q) = st.decodeRequests := by
          conv_rhs => rw [← List.map_id st.decodeRequests]
          apply List.map_congr_left
          intro q hq
          by_cases h : q.id = id₀
          · rw [if_pos h]
            have he := herr q hq h
            cases q
            simp only at he
            simp [he]
          · rw [if_neg h]
            rfl
        rw [hl]
      · rename_i hcc
        exact absurd (Or.inr trivial) hcc
  | cons a t ih =>
    intro fuel st id₀ r hr hs herr hval hfuel
    cases fuel with
    | zero => omega
    | succ fuel' =>
      have henc : encodeInstrs (a :: t) = encodeInstr a ++ encodeInstrs t := by
        simp [encodeInstrs]
      have hne : encodeInstr a ++ encodeInstrs t ≠ [] := fun h =>
        encodeInstr_ne_nil a (List.append_eq_nil.mp h).1
      obtain ⟨hrmem, hrid⟩ := findReq_some_props st id₀ r hr
      have herrsome : r.err.isSome = false := by
        rw [herr r hrmem hrid]
        rfl
      have hcond : ¬ (r.err.isSome = true ∨ encodeInstr a ++ encodeInstrs t = []) := by
        intro hc
        rcases hc with h | h
        · rw [herrsome] at h
          cases h
        · exact hne h
      have hstep := step_static env st id₀ a (encodeInstrs t) r hr hs
        (hval a (List.mem_cons_self a t))
      have hr2 : findReq (updateReq st id₀ (fun q => { q with err := none, uncompressed := q.uncompressed + headerBytes (instrHeader env a) })) id₀ = some { r with err := none, uncompressed := r.uncompressed + headerBytes (instrHeader env a) } :=
        findReq_updateReq_some st id₀ (fun q => { q with err := none, uncompressed := q.uncompressed + headerBytes (instrHeader env a) }) (fun _ => rfl) r hr
      have herr2 : ∀ q ∈ (updateReq st id₀ (fun q => { q with err := none, uncompressed := q.uncompressed + headerBytes (instrHeader env a) })).decodeRequests, q.id = id₀ → q.err = none := by
        intro q hq hid
        simp only [updateReq, List.mem_map] at hq
        obtain ⟨q₀, hq₀, rfl⟩ := hq
        by_cases h : q₀.id = id₀
        · rw [if_pos h]
        · rw [if_neg h]
          rw [if_neg h] at hid
          exact herr q₀ hq₀ hid
      have hfuel2 : t.length < fuel' := by
        simp only [List.length_cons] at hfuel
        omega
      have hrec := ih fuel'
        (updateReq st id₀ (fun q => { q with err := none, uncompressed := q.uncompressed + headerBytes (instrHeader env a) }))
        id₀ { r with err := none, uncompressed := r.uncompressed + headerBytes (instrHeader env a) }
        hr2 hs herr2 (fun j hj => hval j (List.mem_cons_of_mem a hj)) hfuel2
      rw [henc]
      simp only [decodeLoop, hr]
      rw [if_neg hcond]
      simp only [hstep, hrec]
      rw [updateReq_comp st id₀ (fun q => { q with err := none, uncompressed := q.uncompressed + headerBytes (instrHeader env a) }) _ (fun _ => rfl)]
      refine congr_arg₂ Prod.mk ?_ rfl
      refine congrArg (updateReq st id₀) (funext fun q => ?_)
      simp [add_assoc]

/-- C7: for every valid instruction sequence containing no dynamic-index
references and no dynamically-indexed names (only static indices, literal
names and literal values), the whole decode is synchronous — every
`onHeader` emission and the final `onHeadersComplete` fire before the
`decodeStreaming` call returns, and the call returns true. -/
theorem static_only_decode_synchronous (env : Env) (st : State)
    (l : List StaticInstr)
    (hval : ∀ instr ∈ l, instr.valid env.staticTable.length)
    (hfresh : ∀ q ∈ st.decodeRequests, q.id ≠ st.nextReqId) :
    ∃ st', decodeStreaming env st (encodeInstrs l) =
      (st',
       l.map (fun j => Event.onHeader st.nextReqId (instrHeader env j).name (instrHeader env j).value) ++
         [Event.onHeadersComplete st.nextReqId ((l.map (fun j => headerBytes (instrHeader env j))).sum)],
       true) := by
  have hr0 : findReq { st with decodeRequests := ({ id := st.nextReqId, pending := 0, allSubmitted := false, err := none, uncompressed := 0, consumedBytes := 0 } : DecodeRequest) :: st.decodeRequests, nextReqId := st.nextReqId + 1 } st.nextReqId = some { id := st.nextReqId, pending := 0, allSubmitted := false, err := none, uncompressed := 0, consumedBytes := 0 } :=
    findReq_head _ { id := st.nextReqId, pending := 0, allSubmitted := false, err := none, uncompressed := 0, consumedBytes := 0 } st.decodeRequests rfl
  have herr0 : ∀ q ∈ ({ st with decodeRequests := ({ id := st.nextReqId, pending := 0, allSubmitted := false, err := none, uncompressed := 0, consumedBytes := 0 } : DecodeRequest) :: st.decodeRequests, nextReqId := st.nextReqId + 1 } : State).decodeRequests, q.id = st.nextReqId → q.err = none := by
    intro q hq hid
    simp only [List.mem_cons] at hq
    rcases hq with rfl | hq
    · rfl
    · exact absurd hid (hfresh q hq)
  have hfuel : l.length < (encodeInstrs l).length + 1 := by
    have := length_le_length_encodeInstrs l
    omega
  have hloop := decodeLoop_static env l ((encodeInstrs l).length + 1)
    { st with decodeRequests := ({ id := st.nextReqId, pending := 0, allSubmitted := false, err := none, uncompressed := 0, consumedBytes := 0 } : DecodeRequest) :: st.decodeRequests, nextReqId := st.nextReqId + 1 }
    st.nextReqId
    { id := st.nextReqId, pending := 0, allSubmitted := false, err := none, uncompressed := 0, consumedBytes := 0 }
    hr0 rfl herr0 hval hfuel
  have hfind1 := findReq_updateReq_some
    { st with decodeRequests := ({ id := st.nextReqId, pending := 0, allSubmitted := false, err := none, uncompressed := 0, consumedBytes := 0 } : DecodeRequest) :: st.decodeRequests, nextReqId := st.nextReqId + 1 }
    st.nextReqId
    (fun q => { q with err := none, uncompressed := q.uncompressed + (l.map (fun j => headerBytes (instrHeader env j))).sum })
    (fun _ => rfl)
    { id := st.nextReqId, pending := 0, allSubmitted := false, err := none, uncompressed := 0, consumedBytes := 0 }
    hr0
  have hfind2 := findReq_updateReq_some
    (updateReq { st with decodeRequests := ({ id := st.nextReqId, pending := 0, allSubmitted := false, err := none, uncompressed := 0, consumedBytes := 0 } : DecodeRequest) :: st.decodeRequests, nextReqId := st.nextReqId + 1 } st.nextReqId (fun q => { q with err := none, uncompressed := q.uncompressed + (l.map (fun j => headerBytes (instrHeader env j))).sum }))
    st.nextReqId
    (fun q => { q with allSubmitted := !q.err.isSome, consumedBytes := (encodeInstrs l).length - ([] : List Nat).length })
    (fun _ => rfl)
    _ hfind1
  have hcc := checkComplete_fires_complete _ st.nextReqId _ hfind2 ⟨rfl, rfl⟩
  refine ⟨(decodeStreaming env st (encodeInstrs l)).1, ?_⟩
  simp only [decodeStreaming, hloop, hcc]
  refine congr_arg₂ Prod.mk rfl ?_
  simp

theorem static_only_decode_synchronous_witness :
    ∃ st', decodeStreaming env10 initState
        (encodeInstrs [StaticInstr.indexed 2, StaticInstr.literalStaticName 1 [9], StaticInstr.literalName [7] [8, 9]]) =
      (st',
       [Event.onHeader 0 [2] [2, 2], Event.onHeader 0 [1] [9],
        Event.onHeader 0 [7] [8, 9], Event.onHeadersComplete 0 104],
       true) := by
  obtain ⟨st', h⟩ := static_only_decode_synchronous env10 initState
    [StaticInstr.indexed 2, StaticInstr.literalStaticName 1 [9], StaticInstr.literalName [7] [8, 9]]
    (by decide) (by simp [initState])
  refine ⟨st', ?_⟩
  rw [h]
  rfl

/-- C8 counterexample: decoding the single-instruction stream `[0x82]`
(indexed header, static index 2) against the 10-entry static table makes
exactly one `onHeader` call with the table's entry at position 2, but
`onHeadersComplete` reports uncompressed size 35 — the entry's
`len(name) + len(value) + 32` per-entry overhead — and not the claimed
`len(name) + len(value) = 3`. -/
theorem indexed_static2_uncompressed_has_overhead :
    env10.staticTable.length = 10 ∧
    getStaticHeader env10 2 = ⟨[2], [2, 2]⟩ ∧
    (decodeStreaming env10 initState [0x82]).2 =
      ([Event.onHeader 0 [2] [2, 2], Event.onHeadersComplete 0 35], true) ∧
    (35 : Nat) ≠ ([2] : List Nat).length + ([2, 2] : List Nat).length := by
  decide

/-- C8 (amended): for the stream `[0x82]` (indexed static #2) against the
10-entry static table, the decoder makes exactly one `onHeader` call with
the static table's entry at position 2 and then invokes
`onHeadersComplete` with uncompressed size
`len(name) + len(value) + 32` of that entry (the `HPACKHeader::bytes`
accounting size, which adds the fixed 32-byte per-entry overhead). -/
theorem indexed_static2_scenario :
    env10.staticTable.length = 10 ∧
    (decodeStreaming env10 initState [0x82]).2 =
      ([Event.onHeader 0 (getStaticHeader env10 2).name (getStaticHeader env10 2).value,
        Event.onHeadersComplete 0 (headerBytes (getStaticHeader env10 2))], true) ∧
    headerBytes (getStaticHeader env10 2) =
      (getStaticHeader env10 2).name.length + (getStaticHeader env10 2).value.length + 32 := by
  decide

theorem eraseReq_setErr_head (st : State) (r : DecodeRequest)
    (tl : List DecodeRequest) (hl : st.decodeRequests = r :: tl)
    (huniq : ∀ q ∈ tl, q.id ≠ r.id) (e : Option DecodeError) :
    eraseReq (setErr st r.id e) r.id = { st with decodeRequests := tl } := by
  unfold eraseReq setErr updateReq
  simp only [hl, List.map_cons, if_pos rfl]
  rw [List.filter_cons]
  rw [if_neg (by simp)]
  have hmap : tl.map (fun q => if q.id = r.id then { q with err := e } else q) = tl := by
    conv_rhs => rw [← List.map_id tl]
    apply List.map_congr_left
    intro q hq
    rw [if_neg (huniq q hq)]
    rfl
  rw [hmap]
  rw [List.filter_eq_self.mpr ?ha]
  case ha =>
    intro q hq
    simp [huniq q hq]

theorem destructorLoop_spec :
    ∀ (fuel : Nat) (st : State),
      st.decodeRequests.length ≤ fuel → (activeIds st).Nodup →
      BoundaryInv st →
      destructorLoop fuel st =
        ({ st with decodeRequests := [] },
         st.decodeRequests.map (fun r => Event.onDecodeError r.id DecodeError.cancelled)) := by
  intro fuel
  induction fuel with
  | zero =>
    intro st hlen hnd hBI
    have hnil : st.decodeRequests = [] := List.length_eq_zero.mp (Nat.le_zero.mp hlen)
    simp only [destructorLoop, hnil, List.map_nil]
    refine congr_arg₂ Prod.mk ?_ rfl
    rw [← hnil]
  | succ fuel ih =>
    intro st hlen hnd hBI
    cases hl : st.decodeRequests with
    | nil =>
      simp only [destructorLoop, hl, List.map_nil]
      refine congr_arg₂ Prod.mk ?_ rfl
      rw [← hl]
    | cons r tl =>
      have hfind : findReq st r.id = some r := findReq_head st r tl hl
      have hrmem : r ∈ st.decodeRequests := by rw [hl]; exact List.mem_cons_self r tl
      obtain ⟨herr_r, hpend⟩ := hBI r hrmem
      have huniq : ∀ q ∈ tl, q.id ≠ r.id := by
        intro q hq
        have hnd' : (activeIds st).Nodup := hnd
        rw [activeIds, hl, List.map_cons] at hnd'
        have := (List.nodup_cons.mp hnd').1
        intro hqe
        exact this (hqe ▸ List.mem_map_of_mem (fun x => x.id) hq)
      have hfind₁ : findReq (setErr st r.id (some DecodeError.cancelled)) r.id = some { r with err := some DecodeError.cancelled } :=
        findReq_setErr_self st r.id (some DecodeError.cancelled) r hfind
      have hnc : ¬ (({ r with err := some DecodeError.cancelled } : DecodeRequest).pending = 0 ∧ ({ r with err := some DecodeError.cancelled } : DecodeRequest).allSubmitted) := by
        intro hc
        rcases hpend with h | h
        · exact h hc.1
        · rw [h] at hc
          cases hc.2
      have hcc := checkComplete_fires_error (setErr st r.id (some DecodeError.cancelled)) r.id { r with err := some DecodeError.cancelled } DecodeError.cancelled hfind₁ hnc rfl
      rw [eraseReq_setErr_head st r tl hl huniq (some DecodeError.cancelled)] at hcc
      have hlen' : ({ st with decodeRequests := tl } : State).decodeRequests.length ≤ fuel := by
        simp only [hl, List.length_cons] at hlen
        simpa using Nat.le_of_succ_le_succ hlen
      have hnd' : (activeIds { st with decodeRequests := tl }).Nodup := by
        have : (activeIds st).Nodup := hnd
        rw [activeIds, hl, List.map_cons] at this
        exact (List.nodup_cons.mp this).2
      have hBI' : BoundaryInv { st with decodeRequests := tl } := by
        intro q hq
        exact hBI q (by rw [hl]; exact List.mem_cons_of_mem r hq)
      have hrec := ih { st with decodeRequests := tl } hlen' hnd' hBI'
      simp only [destructorLoop, hl, hcc, hrec]
      rfl

/-- C9: if the decoder engine is destroyed while decode requests are still
active (ids unique, each request at the reactor boundary — no recorded
error and not yet complete), the destructor synchronously invokes
`onDecodeError` with `CANCELLED` exactly once for each active request, in
list order, leaves the active-request list empty, and completes before any
outstanding asynchronous resolution runs (the pending-operation queue is
untouched). -/
theorem destructor_cancels_all (st : State)
    (hnd : (activeIds st).Nodup) (hBI : BoundaryInv st) :
    destructor st =
      ({ st with decodeRequests := [] },
       st.decodeRequests.map (fun r => Event.onDecodeError r.id DecodeError.cancelled)) ∧
    (destructor st).1.decodeRequests = [] ∧
    (destructor st).1.pendingOps = st.pendingOps := by
  have h := destructorLoop_spec st.decodeRequests.length st le_rfl hnd hBI
  unfold destructor
  refine ⟨h, ?_, ?_⟩
  · rw [h]
  · rw [h]

theorem destructor_cancels_all_witness :
    destructor stTwo =
      ({ stTwo with decodeRequests := [] },
       [Event.onDecodeError 3 DecodeError.cancelled]) ∧
    (destructor stTwo).1.decodeRequests = [] ∧
    (destructor stTwo).1.pendingOps = [PendingOp.indexedHdr 3 12] := by
  have h := destructor_cancels_all stTwo (by decide)
    (by unfold BoundaryInv; decide)
  refine ⟨?_, h.2.1, ?_⟩
  · rw [h.1]
    rfl
  · rw [h.2.2]
    rfl

/-- C6 counterexample: on the stream `[0x42]` the code decodes the
new-entry target with a 6-bit prefix, obtaining 2 (a static slot) and
failing with `INVALID_INDEX`; under the claim's 8-bit-prefix reading the
target would be 66, which names a dynamic slot and would not be rejected. -/
theorem literal_target_index_not_8bit :
    (decodeStreaming env10 initState [0x42]).2.1 =
      [Event.onDecodeError 0 DecodeError.invalidIndex] ∧
    claimTargetIndexDecode [0x42] = .ok (66, []) ∧
    isStatic env10 66 = false :=
  ⟨rfl, rfl, rfl⟩

/-- C6 (amended): the new-entry target index of a literal-with-indexing
instruction is decoded as a 6-bit-prefixed integer; if it names a static
slot the request records `INVALID_INDEX`, otherwise decoding proceeds with
the 6-bit-decoded target converted to a dynamic index. -/
theorem literal_target_index_6bit (env : Env) (st : State) (id₀ : Nat)
    (bs rest : List Nat) (v : Nat)
    (hb : (bs.headD 0) % 256 / 64 % 2 = 1)
    (h6 : decodeInteger 6 bs = .ok (v, rest)) :
    (isStatic env v = true →
      decodeLiteralHeader env st id₀ bs =
        (setErr (setErr st id₀ none) id₀ (some .invalidIndex), [], rest)) ∧
    (isStatic env v = false → rest ≠ [] →
      decodeLiteralHeader env st id₀ bs =
        decodeLiteralName env (setErr st id₀ none) id₀ rest 8 true
          (globalToDynamicIndex env v)) := by
  constructor
  · intro hstat
    simp only [decodeLiteralHeader]
    rw [if_pos hb]
    simp only [h6]
    rw [if_pos hstat]
  · intro hstat hrest
    simp only [decodeLiteralHeader]
    rw [if_pos hb]
    simp only [h6]
    rw [if_neg (by rw [hstat]; exact Bool.false_ne_true), if_neg hrest]

/-- Witness for C6 (amended): the static case on `[0x42]` (6-bit target 2)
and the dynamic case on `[0x4B, 0x01]` (6-bit target 11 = dynamic 1). -/
theorem literal_target_index_6bit_witness :
    decodeLiteralHeader env10 stOne 5 [0x42] =
      (setErr (setErr stOne 5 none) 5 (some .invalidIndex), [], []) ∧
    decodeLiteralHeader env10 stOne 5 [0x4B, 0x01] =
      decodeLiteralName env10 (setErr stOne 5 none) 5 [0x01] 8 true
        (globalToDynamicIndex env10 11) :=
  ⟨(literal_target_index_6bit env10 stOne 5 [0x42] [] 2 rfl rfl).1 rfl,
   (literal_target_index_6bit env10 stOne 5 [0x4B, 0x01] [0x01] 11 rfl rfl).2
     rfl (by decide)⟩

/-- Witness for C2 (amended) at the stream `[0x8B, 0xFF]` with a later
timeout outcome delivered to the still-in-flight resolution: the dead
request receives no further callback. -/
theorem syncError_first_error_wins_witness :
    true = true ∧
    findReq { decodeRequests := [], pendingOps := [PendingOp.indexedHdr 0 11], pendingDecodeBytes := 0, queuedBytes := 0, table := [], nextReqId := 1 } 0 = none ∧
    NoEventsFor 0 ([] : List Event) :=
  ⟨rfl,
   (syncError_first_error_wins env10 initState [0x8B, 0xFF]
     DecodeError.bufferUnderflow rfl (by decide)).2.1,
   (syncError_first_error_wins env10 initState [0x8B, 0xFF]
     DecodeError.bufferUnderflow rfl (by decide)).2.2 [(0, Outcome.timeout)] rfl⟩

end QPACK
